import Mathlib

/-!
Verification model of the corso OneDrive incremental-collection engine
(`src/internal/connector/onedrive/collections.go`) and the backup-details
builder (`pkg/backup/details`).

Go strings are modelled as `List Char` (so Go's `strings.HasPrefix` is raw
list-prefix, `strings.Replace` with count 1 is first-occurrence replacement),
and Go maps as association lists with first-match lookup; Go's `m[k] = v`
replaces in place or appends, `delete(m, k)` removes the key.
-/

namespace Corso

/-- A Go string. -/
abbrev Str := List Char

/-- Go map lookup (`v, ok := m[k]`), first matching key. -/
def lookupA {κ α : Type} [DecidableEq κ] : List (κ × α) → κ → Option α
  | [], _ => none
  | (k, v) :: rest, key => if k = key then some v else lookupA rest key

/-- Go map write `m[k] = v`: replace in place, or append a new entry. -/
def insertA {κ α : Type} [DecidableEq κ] : List (κ × α) → κ → α → List (κ × α)
  | [], k, v => [(k, v)]
  | (k', v') :: rest, k, v =>
      if k' = k then (k, v) :: rest else (k', v') :: insertA rest k v

/-- Go `delete(m, k)`. -/
def eraseA {κ α : Type} [DecidableEq κ] : List (κ × α) → κ → List (κ × α)
  | [], _ => []
  | (k', v') :: rest, k =>
      if k' = k then eraseA rest k else (k', v') :: eraseA rest k

/-- Go set insert on a `map[string]struct{}` modelled as a list of keys. -/
def setInsert (s : List Str) (x : Str) : List Str :=
  if x ∈ s then s else s ++ [x]

/-- Go `strings.Replace(s, old, new, 1)`: replace the first occurrence of
`old` in `s` by `new` (with `old = ""` this inserts `new` at the start). -/
def replaceOnce (old new : Str) : Str → Str
  | [] => if old <+: ([] : Str) then new else []
  | c :: rest =>
      if old <+: (c :: rest) then new ++ (c :: rest).drop old.length
      else c :: replaceOnce old new rest

/-- `updatePath` from collections.go: insert when the old value is empty,
no-op when unchanged, otherwise rewrite every entry whose value has the old
path as a raw string prefix. -/
def updatePath (paths : List (Str × Str)) (id : Str) (newPath : Str) :
    List (Str × Str) :=
  let oldPath := (lookupA paths id).getD []
  if oldPath = [] then insertA paths id newPath
  else if oldPath = newPath then paths
  else
    paths.map fun kv =>
      if oldPath <+: kv.2 then (kv.1, replaceOnce oldPath newPath kv.2)
      else kv

/-- Kind of a drive item: Go branches on `GetFolder() != nil`,
`GetPackage() != nil`, `GetFile() != nil`, with an unsupported default. -/
inductive ItemKind where
  | folder
  | pkg
  | file
  | other
deriving DecidableEq

/-- The `parentReference` of a drive item: optional id and optional raw path. -/
structure ParentRef where
  pid : Option Str
  ppath : Option Str
deriving DecidableEq

/-- The fields of `models.DriveItemable` read by `UpdateCollections`. -/
structure DriveItemM where
  id : Str
  name : Option Str
  parentRef : Option ParentRef
  root : Bool
  kind : ItemKind
  deleted : Bool
deriving DecidableEq

/-- Path rendered as a Go string: elements joined by slashes. -/
abbrev PathElems := List Str

def renderP (p : PathElems) : Str := List.intercalate ['/'] p

/-- Collection state. Modelled from the spec (`data.StateOf` is not under
src/): absent fullPath means Deleted, absent prev means New, equal paths
NotMoved, different paths Moved. -/
inductive CState where
  | stNew
  | notMoved
  | moved
  | stDeleted
deriving DecidableEq

def stateOf (prev full : Option PathElems) : CState :=
  match full with
  | none => .stDeleted
  | some f =>
      match prev with
      | none => .stNew
      | some pv => if renderP pv = renderP f then .notMoved else .moved

/-- The fields of onedrive `Collection` used by the reconciler. -/
structure CollectionM where
  fullPath : Option PathElems
  prevPath : Option PathElems
  driveItems : List (Str × DriveItemM)
  state : CState
  doNotMergeItems : Bool
deriving DecidableEq

/-- `NewCollection`: fresh item index, state derived from the path pair. -/
def NewCollectionM (fullPath prevPath : Option PathElems) (doNotMerge : Bool) :
    CollectionM :=
  { fullPath := fullPath
    prevPath := prevPath
    driveItems := []
    state := stateOf prevPath fullPath
    doNotMergeItems := doNotMerge }

/-- `Collection.SetFullPath`: also recomputes the state. -/
def setFullPath (c : CollectionM) (p : PathElems) : CollectionM :=
  { c with fullPath := some p, state := stateOf c.prevPath (some p) }

/-- `Collection.Add` (collections.go lines 982-987): store the item under its
id; the boolean result is true when the id was not present yet. -/
def collAdd (c : CollectionM) (item : DriveItemM) : CollectionM × Bool :=
  let found := (lookupA c.driveItems item.id).isSome
  ({ c with driveItems := insertA c.driveItems item.id item }, !found)

/-- `Collection.Remove` (collections.go lines 990-999). -/
def collRemove (c : CollectionM) (item : DriveItemM) : CollectionM × Bool :=
  if (lookupA c.driveItems item.id).isSome then
    ({ c with driveItems := eraseA c.driveItems item.id }, true)
  else (c, false)

/-- Errors surfaced by the reconciler model.  `nilPanic` stands for the Go
nil-interface method calls that would panic (`FullPath().String()` on a
tombstone collection). -/
inductive UErr where
  | noParentRef
  | emptyName
  | badPrevPath
  | nilPanic
  | prevCollNotFound
  | removeFromPrev
  | badDrivePath
  | unsupportedItem
deriving DecidableEq

/-- Context threaded through `UpdateCollections`: the `Collections` receiver
fields it reads plus the per-drive arguments. -/
structure UCtx where
  prefixElems : PathElems
  driveID : Str
  driveName : Str
  isOneDrive : Bool
  isLibraries : Bool
  matcherIsAny : Bool
  matcherMatches : Str → Bool
  oldPaths : List (Str × Str)
  invalidPrevDelta : Bool

/-- Mutable state threaded through `UpdateCollections`: the collection map,
`newPaths`, the exclusion set, the per-run item-to-collection index and the
stat counters. -/
structure UCState where
  cmap : List (Str × CollectionM)
  newPaths : List (Str × Str)
  excluded : List Str
  itemColl : List (Str × Str)
  numItems : Nat
  numFiles : Nat
  numContainers : Nat
deriving DecidableEq

def dataSuffix : Str := ['.', 'd', 'a', 't', 'a']

def metaSuffix : Str := ['.', 'm', 'e', 't', 'a']

def restrictedDirectory : Str := ['S', 'i', 't', 'e', ' ', 'P', 'a', 'g', 'e', 's']

def rootDrivePatternStr (driveID : Str) : Str :=
  ['/', 'd', 'r', 'i', 'v', 'e', 's', '/'] ++ driveID ++ ['/', 'r', 'o', 'o', 't', ':']

/-- Modelled from the spec: `GetCanonicalPath` splits the raw parent path on
slashes and prepends the tenant/service/owner/category metadata elements
(pkg/path is not under src/; the builder drops empty elements). -/
def canonicalPath (ctx : UCtx) (p : Str) : PathElems :=
  ctx.prefixElems ++ (p.splitOn '/').filter (fun e => !e.isEmpty)

/-- Modelled from the spec: `path.FromDataLayerPath` parses a rendered data
layer path, requiring the four metadata elements and nonempty elements. -/
def parsePath (s : Str) : Option PathElems :=
  let es := s.splitOn '/'
  if 4 ≤ es.length ∧ es.all (fun e => !e.isEmpty) then some es else none

/-- Modelled from the spec: `path.ToOneDrivePath` extracts the drive folder
elements (after the four metadata elements and drives/id/root:), failing on
malformed paths. -/
def toOneDrivePath (p : PathElems) : Except UErr (List Str) :=
  if 7 ≤ p.length then .ok (p.drop 7) else .error .badDrivePath

/-- Modelled from the spec: `includePath` checks the drive folder portion
against the scope matcher, treating a malformed path as included, and
includes the root folder when the matcher is "any". -/
def includePath (ctx : UCtx) (p : PathElems) : Bool :=
  if p.length < 4 then true
  else
    let fs := renderP (p.drop 4)
    if fs = [] ∧ ctx.matcherIsAny then true else ctx.matcherMatches fs

/-- `shouldSkipDrive` (collections.go lines 771-778). -/
def shouldSkipDrive (ctx : UCtx) (p : Option PathElems) : Bool :=
  match p with
  | none => false
  | some dp =>
      !includePath ctx dp || (ctx.isLibraries && (ctx.driveName == restrictedDirectory))

/-- `updateCollectionPaths` (collections.go lines 441-487): update the moved
collection and ripple the element-prefix substitution to every other
collection; a tombstone (nil `fullPath`) hit by the nil-interface calls is a
panic, modelled as `nilPanic`. -/
def updateCollectionPaths (id : Str) (cmap : List (Str × CollectionM))
    (curPath : PathElems) : Except UErr (Bool × List (Str × CollectionM)) :=
  match lookupA cmap id with
  | none => .ok (false, cmap)
  | some col =>
      match col.fullPath with
      | none => .error .nilPanic
      | some initial =>
          if renderP initial = renderP curPath then .ok (true, cmap)
          else
            let cmap1 := insertA cmap id (setFullPath col curPath)
            if cmap1.any (fun kv => !(kv.1 == id) && kv.2.fullPath.isNone) then
              .error .nilPanic
            else
              .ok (true, cmap1.map fun kv =>
                if kv.1 = id then kv
                else
                  match kv.2.fullPath with
                  | some fp =>
                      if initial <+: fp then
                        (kv.1, setFullPath kv.2 (curPath ++ fp.drop initial.length))
                      else kv
                  | none => kv)

/-- The previous-path resolution of the folder/package case (lines
592-598). -/
def folderPrevPathRes (ctx : UCtx) (id : Str) : Except UErr (Option PathElems) :=
  match lookupA ctx.oldPaths id with
  | none => .ok none
  | some s =>
      match parsePath s with
      | none => .error .badPrevPath
      | some p => .ok (some p)

/-- The folder/package case of `UpdateCollections` (lines 591-669). -/
def processFolder (ctx : UCtx) (st : UCState) (item : DriveItemM)
    (itemPath : Option PathElems) : Except UErr UCState :=
  match folderPrevPathRes ctx item.id with
  | .error e => .error e
  | .ok prevPath =>
      if item.deleted then
        let st1 := { st with newPaths := eraseA st.newPaths item.id }
        match prevPath with
        | none => .ok st1
        | some pp =>
            let tomb := NewCollectionM none (some pp) ctx.invalidPrevDelta
            .ok { st1 with cmap := insertA st1.cmap item.id tomb }
      else
        match itemPath with
        | none => .error .nilPanic
        | some ip =>
            let st1 := { st with newPaths := updatePath st.newPaths item.id (renderP ip) }
            match updateCollectionPaths item.id st1.cmap ip with
            | .error e => .error e
            | .ok (found, cmap1) =>
                let fresh := NewCollectionM (some ip) prevPath ctx.invalidPrevDelta
                let st2 :=
                  if found then { st1 with cmap := cmap1 }
                  else
                    { st1 with
                      cmap := insertA cmap1 item.id fresh
                      numContainers := st1.numContainers + 1 }
                if !ctx.isOneDrive then .ok st2
                else
                  match lookupA st2.cmap item.id with
                  | none => .ok st2
                  | some col =>
                      let p := collAdd col item
                      .ok { st2 with
                            cmap := insertA st2.cmap item.id p.1
                            numItems := if p.2 then st2.numItems + 1 else st2.numItems }

/-- Tail of the file case: register the item in `itemCollection` and add it to
its collection (through the current map entry, matching the Go pointer
mutation). -/
def finishFile (st : UCState) (item : DriveItemM) (collectionID : Str) :
    Except UErr UCState :=
  let st1 := { st with itemColl := insertA st.itemColl item.id collectionID }
  match lookupA st1.cmap collectionID with
  | none => .ok st1
  | some col =>
      let p := collAdd col item
      .ok { st1 with
            cmap := insertA st1.cmap collectionID p.1
            numItems := if p.2 then st1.numItems + 1 else st1.numItems
            numFiles := if p.2 then st1.numFiles + 1 else st1.numFiles }

/-- The exclusion-set update at the head of the file case (lines 672-679). -/
def fileExclusions (ctx : UCtx) (st : UCState) (item : DriveItemM) : UCState :=
  let newExcl := setInsert (setInsert st.excluded (item.id ++ dataSuffix))
    (item.id ++ metaSuffix)
  if !ctx.invalidPrevDelta then { st with excluded := newExcl } else st

/-- Resolution of the parent collection previous path (lines 695-707). -/
def filePrevPathRes (ctx : UCtx) (collectionID : Str)
    (collectionPath : PathElems) (odFolders : List Str) :
    Except UErr (Option PathElems) :=
  if odFolders.isEmpty then .ok (some collectionPath)
  else
    match lookupA ctx.oldPaths collectionID with
    | none => .ok none
    | some s =>
        match parsePath s with
        | none => .error .badPrevPath
        | some p => .ok (some p)

/-- The lazy collection creation of the file case (lines 709-730). -/
def ensureFileCollection (ctx : UCtx) (st : UCState) (collectionID : Str)
    (collectionPath : PathElems) (prevCollectionPath : Option PathElems) :
    UCState :=
  if (lookupA st.cmap collectionID).isSome then st
  else
    let fresh := NewCollectionM (some collectionPath) prevCollectionPath
      ctx.invalidPrevDelta
    { st with
      cmap := insertA st.cmap collectionID fresh
      numContainers := st.numContainers + 1 }

/-- The file case of `UpdateCollections` (lines 671-761). -/
def processFile (ctx : UCtx) (st : UCState) (item : DriveItemM)
    (collectionID : Str) (collectionPath : PathElems) : Except UErr UCState :=
  let st0 := fileExclusions ctx st item
  if item.deleted then
    .ok { st0 with numFiles := st0.numFiles + 1, numItems := st0.numItems + 1 }
  else
    match toOneDrivePath collectionPath with
    | .error e => .error e
    | .ok odFolders =>
        match filePrevPathRes ctx collectionID collectionPath odFolders with
        | .error e => .error e
        | .ok prevCollectionPath =>
            let st1 := ensureFileCollection ctx st0 collectionID collectionPath
              prevCollectionPath
            match lookupA st1.itemColl item.id with
            | some prevColID =>
                match lookupA st1.cmap prevColID with
                | none => .error .prevCollNotFound
                | some pcol =>
                    let p := collRemove pcol item
                    if p.2 then
                      finishFile { st1 with cmap := insertA st1.cmap prevColID p.1 }
                        item collectionID
                    else .error .removeFromPrev
            | none => finishFile st1 item collectionID

/-- The collection path string resolution of the item loop (lines 541-554):
deleted items resolve the parent from the previous paths (skipping unknown
parents), live items require the parent reference path. -/
def collectionPathStrRes (ctx : UCtx) (item : DriveItemM) (pr : ParentRef)
    (collectionID : Str) : Except UErr (Option Str) :=
  if item.deleted then
    match lookupA ctx.oldPaths collectionID with
    | none => .ok none
    | some s => .ok (some s)
  else
    match pr.ppath with
    | none => .error .noParentRef
    | some s => .ok (some s)

/-- The item path computation (lines 571-581): only live items get a path,
and an empty name is an error. -/
def itemPathRes (item : DriveItemM) (collectionPath : PathElems) :
    Except UErr (Option PathElems) :=
  if item.deleted then .ok none
  else
    let name := item.name.getD []
    if name = [] then .error .emptyName
    else .ok (some (collectionPath ++ [name]))

/-- One iteration of the `UpdateCollections` item loop (lines 504-766). -/
def processItem (ctx : UCtx) (st : UCState) (item : DriveItemM) :
    Except UErr UCState :=
  if item.root then
    let rootRendered := renderP (canonicalPath ctx (rootDrivePatternStr ctx.driveID))
    .ok { st with newPaths := updatePath st.newPaths item.id rootRendered }
  else
    match item.parentRef with
    | none => .error .noParentRef
    | some pr =>
        match pr.pid with
        | none => .error .noParentRef
        | some collectionID =>
            match collectionPathStrRes ctx item pr collectionID with
            | .error e => .error e
            | .ok none => .ok st
            | .ok (some collectionPathStr) =>
                let collectionPath := canonicalPath ctx collectionPathStr
                match itemPathRes item collectionPath with
                | .error e => .error e
                | .ok itemPath =>
                    if shouldSkipDrive ctx itemPath
                        && shouldSkipDrive ctx (some collectionPath) then .ok st
                    else
                      match item.kind with
                      | .folder => processFolder ctx st item itemPath
                      | .pkg => processFolder ctx st item itemPath
                      | .file => processFile ctx st item collectionID collectionPath
                      | .other => .error .unsupportedItem

/-- A whole stream of item events handed to `UpdateCollections`, page after
page (the page boundaries are irrelevant to the state). -/
def runStream (ctx : UCtx) (st : UCState) : List DriveItemM → Except UErr UCState
  | [] => .ok st
  | item :: rest =>
      match processItem ctx st item with
      | .error e => .error e
      | .ok st1 => runStream ctx st1 rest

/-! ### Collections.Get (collections.go lines 256-439) -/

/-- The delta outcome `collectItems` returns for one drive (`collectItems`
is not under src/; modelled from the spec as an oracle input: a new delta
URL, possibly empty, and whether the previous delta token was invalid). -/
structure DeltaUpdate where
  url : Str
  reset : Bool
deriving DecidableEq

/-- The per-drive metadata aggregation of `Collections.Get` (lines 329-353):
a delta entry is persisted only when the returned URL is non-empty, while a
folder-paths entry (a copy of the final `newPaths`) is persisted for every
enumerated drive. -/
def persistStep (acc : List (Str × Str) × List (Str × List (Str × Str)))
    (r : Str × DeltaUpdate × List (Str × Str)) :
    List (Str × Str) × List (Str × List (Str × Str)) :=
  (if r.2.1.url ≠ [] then insertA acc.1 r.1 r.2.1.url else acc.1,
    insertA acc.2 r.1 r.2.2)

def persistMetadata (results : List (Str × DeltaUpdate × List (Str × Str))) :
    List (Str × Str) × List (Str × List (Str × Str)) :=
  results.foldl persistStep ([], [])

/-- The `modifiedPaths` set of `Collections.Get` (lines 362-365): rendered
full paths of the collections produced so far. -/
def modifiedRender (cmap : List (Str × CollectionM)) : List Str :=
  cmap.map fun kv => renderP (kv.2.fullPath.getD [])

/-- A tombstone in the collection map makes the Go `modifiedPaths` loop call
`String()` through a nil path interface. -/
def hasTombstone (cmap : List (Str × CollectionM)) : Bool :=
  cmap.any fun kv => kv.2.fullPath.isNone

/-- One iteration of the tombstone-synthesis loop (lines 367-400): skip ids
still present in the new paths and previous paths taken over by a collection
of this run; otherwise parse the previous path and store a tombstone. -/
def tombStep (modified : List Str) (acc : Except UErr UCState)
    (e : Str × Str) : Except UErr UCState :=
  match acc with
  | .error err => .error err
  | .ok cur =>
      if (lookupA cur.newPaths e.1).isSome then .ok cur
      else if e.2 ∈ modified then .ok cur
      else
        let cur1 := { cur with newPaths := eraseA cur.newPaths e.1 }
        match parsePath e.2 with
        | none => .error .badPrevPath
        | some pp =>
            let tomb := NewCollectionM none (some pp) true
            .ok { cur1 with cmap := insertA cur1.cmap e.1 tomb }

/-- The post-stream reconciliation of `Collections.Get` for one drive (lines
355-401): when the delta was reset, synthesize Deleted collections for every
previously known container missing from the new paths whose previous path was
not taken over by a collection of this run. -/
def tombstonePhase (reset : Bool) (oldPaths : List (Str × Str)) (st : UCState) :
    Except UErr UCState :=
  if !reset then .ok st
  else if hasTombstone st.cmap then .error .nilPanic
  else oldPaths.foldl (tombStep (modifiedRender st.cmap)) (.ok st)

/-- One drive of `Collections.Get`.  The `collectItems` wrapper is modelled
from the spec: `newPaths` starts as a copy of `oldPaths` (empty after a
reset) and `invalidPrevDelta` mirrors the reset; the item stream is folded
through `UpdateCollections`, then the tombstone phase runs. -/
def runDrive (ctx : UCtx) (reset : Bool) (cmap0 : List (Str × CollectionM))
    (events : List DriveItemM) : Except UErr UCState :=
  let ctx1 := { ctx with invalidPrevDelta := reset }
  let paths0 : List (Str × Str) := if reset then [] else ctx.oldPaths
  let st0 : UCState := {
    cmap := cmap0
    newPaths := paths0
    excluded := []
    itemColl := []
    numItems := 0
    numFiles := 0
    numContainers := 0 }
  match runStream ctx1 st0 events with
  | .error e => .error e
  | .ok st => tombstonePhase reset ctx.oldPaths st

/-! ### Metadata codec (collections.go lines 118-252) -/

inductive DErr where
  | decodeFailure
  | existingMapping
deriving DecidableEq

/-- `deserializeMap` (lines 226-252), the reader modelled by its decode
outcome (`none` is a JSON decode failure).  Returns the error paired with
the map in its final state: the decoded entries are copied into the
accumulated map only after the duplicate scan passes, so both error branches
return before `maps.Copy` runs. -/
def deserializeMapGo {α : Type} (content : Option (List (Str × α)))
    (alreadyFound : List (Str × α)) : Option DErr × List (Str × α) :=
  match content with
  | none => (some .decodeFailure, alreadyFound)
  | some tmp =>
      if tmp.any (fun kv => (lookupA alreadyFound kv.1).isSome) then
        (some .existingMapping, alreadyFound)
      else
        (none, tmp.foldl (fun m kv => insertA m kv.1 kv.2) alreadyFound)

/-- `graph.PreviousPathFileName`: opaque constant from the graph package
(not under src/), only its distinctness matters. -/
def previousPathFileName : Str := ['p', 'r', 'e', 'v', 'p', 'a', 't', 'h', 's']

/-- `graph.DeltaURLsFileName`: opaque constant from the graph package. -/
def deltaURLsFileName : Str := ['d', 'e', 'l', 't', 'a', 'u', 'r', 'l', 's']

/-- A metadata item: file name plus the decode outcomes of its bytes under
each of the two expected map shapes. -/
structure MetaItem where
  name : Str
  deltaDecode : Option (List (Str × Str))
  pathsDecode : Option (List (Str × List (Str × Str)))

/-- Accumulated metadata: previous deltas and previous folder paths. -/
abbrev MetaState := List (Str × Str) × List (Str × List (Str × Str))

/-- One metadata item of `deserializeMetadata` (lines 139-191): a duplicate
drive id aborts the load, any other decode failure is logged and skipped,
unknown file names are skipped. -/
def processMetaItem (st : MetaState) (it : MetaItem) : Except DErr MetaState :=
  if it.name = previousPathFileName then
    match deserializeMapGo it.pathsDecode st.2 with
    | (none, m) => .ok (st.1, m)
    | (some .existingMapping, _) => .error .existingMapping
    | (some .decodeFailure, _) => .ok st
  else if it.name = deltaURLsFileName then
    match deserializeMapGo it.deltaDecode st.1 with
    | (none, m) => .ok (m, st.2)
    | (some .existingMapping, _) => .error .existingMapping
    | (some .decodeFailure, _) => .ok st
  else .ok st

def processMetaItems (st : MetaState) : List MetaItem → Except DErr MetaState
  | [] => .ok st
  | it :: rest =>
      match processMetaItem st it with
      | .error e => .error e
      | .ok st1 => processMetaItems st1 rest

/-- The per-collection cleanup of `deserializeMetadata` (lines 196-214):
drop empty delta tokens together with their folder entries, then drop orphan
entries on either side. -/
def pruneMeta (st : MetaState) : MetaState :=
  let deltas := st.1.filter fun kv => !kv.2.isEmpty && (lookupA st.2 kv.1).isSome
  let folders := st.2.filter fun kv => (lookupA deltas kv.1).isSome
  (deltas, folders)

/-- `deserializeMetadata` (lines 118-218) over the metadata collections. -/
def deserializeMetadata (st : MetaState) :
    List (List MetaItem) → Except DErr MetaState
  | [] => .ok st
  | col :: rest =>
      match processMetaItems st col with
      | .error e => .error e
      | .ok st1 => deserializeMetadata (pruneMeta st1) rest

/-! ### Details builder (pkg/backup/details, src/unnamed/part_004) -/

namespace Details

/-- Modified times as naturals; `time.Before` is strict less-than. -/
abbrev TimeT := Nat

/-- The parts of `ItemInfo` the folder upsert reads: `size()` and
`Modified()`. -/
structure ItemInfoM where
  size : Int
  modified : TimeT
deriving DecidableEq

/-- `FolderInfo` of a folder entry. -/
structure FolderInfoM where
  displayName : Str
  modified : TimeT
  size : Int
deriving DecidableEq

/-- `folderEntry`.  `ShortRef` is modelled by the repo path element list
itself (in Go it is a hash of the rendered repo path). -/
structure FolderEntryM where
  repoRef : List Str
  shortRef : List Str
  parentRef : List Str
  locationRef : Option (List Str)
  updated : Bool
  info : FolderInfoM
deriving DecidableEq

/-- A details entry, restricted to the fields the claim concerns; folder
entries carry `some` folder info, item entries carry `none`. -/
structure DetailsEntryM where
  repoRef : List Str
  shortRef : List Str
  parentRef : List Str
  updated : Bool
  folderInfo : Option FolderInfoM
deriving DecidableEq

/-- `locationRefOf` (part_004 lines 216-226): pop the four metadata
elements. -/
def locationRefOf (pb : Option (List Str)) : Option (List Str) :=
  pb.map (List.drop 4)

/-- One folder entry of the `FolderEntriesForPath` loop body (part_004
lines 189-200): the display name comes from the location when it still has
elements, from the storage path otherwise. -/
def feEntry (parent : List Str) (hp : parent ≠ []) (lfs : Option (List Str)) :
    FolderEntryM :=
  { repoRef := parent
    shortRef := parent
    parentRef := parent.dropLast
    locationRef := lfs
    updated := false
    info :=
      { displayName :=
          (match lfs with
           | some l =>
               match l.getLast? with
               | some x => x
               | none => parent.getLast hp
           | none => parent.getLast hp)
        modified := 0
        size := 0 } }

/-- The loop of `FolderEntriesForPath` (part_004 lines 169-211), recursing
with `parent.Dir()` and `lfs.Dir()`. -/
def folderEntriesAux (parent : List Str) (lfs : Option (List Str)) :
    List FolderEntryM :=
  if hp : parent = [] then []
  else feEntry parent hp lfs
    :: folderEntriesAux parent.dropLast (lfs.map List.dropLast)
termination_by parent.length
decreasing_by
  simp only [List.length_dropLast]
  have := List.length_pos.mpr hp
  omega

/-- `FolderEntriesForPath` (part_004 lines 169-211). -/
def folderEntriesForPath (parent : List Str) (location : Option (List Str)) :
    List FolderEntryM :=
  folderEntriesAux parent (locationRefOf location)

/-- The loop body of `Builder.AddFoldersForItem` applied to one cached
folder entry: grow the size, take the later modified time, or the updated
flag. -/
def bumpFolder (f : FolderEntryM) (itemInfo : ItemInfoM) (updated : Bool) :
    FolderEntryM :=
  { f with
    info := { f.info with
      size := f.info.size + itemInfo.size
      modified :=
        if f.info.modified < itemInfo.modified then itemInfo.modified
        else f.info.modified }
    updated := f.updated || updated }

/-- `Builder.AddFoldersForItem` (part_004 lines 228-262) acting on the
`knownFolders` cache. -/
def addFoldersForItem (kf : List (List Str × FolderEntryM))
    (folders : List FolderEntryM) (itemInfo : ItemInfoM) (updated : Bool) :
    List (List Str × FolderEntryM) :=
  folders.foldl
    (fun kf folder =>
      insertA kf folder.shortRef
        (bumpFolder ((lookupA kf folder.shortRef).getD folder) itemInfo updated))
    kf

/-- One `AddFoldersForItem` call as issued by the merge flow: the folder list
comes from `FolderEntriesForPath` on the item path. -/
structure FolderCall where
  parent : List Str
  location : Option (List Str)
  info : ItemInfoM
  updated : Bool

/-- A sequence of `AddFoldersForItem` calls folded over `knownFolders`. -/
def runBuilderFolders (kf : List (List Str × FolderEntryM)) :
    List FolderCall → List (List Str × FolderEntryM)
  | [] => kf
  | c :: rest =>
      runBuilderFolders
        (addFoldersForItem kf (folderEntriesForPath c.parent c.location)
          c.info c.updated) rest

/-- `Details.addFolder` (part_004 lines 291-299): the details entry written
for a cached folder. -/
def detailsOfFolder (kv : List Str × FolderEntryM) : DetailsEntryM :=
  { repoRef := kv.2.repoRef
    shortRef := kv.2.shortRef
    parentRef := kv.2.parentRef
    updated := kv.2.updated
    folderInfo := some kv.2.info }

/-- `Builder.Details` (part_004 lines 154-164 with `addFolder`, lines
291-299): the accumulated entries followed by one entry per cached folder. -/
def buildDetails (itemEntries : List DetailsEntryM)
    (kf : List (List Str × FolderEntryM)) : List DetailsEntryM :=
  itemEntries ++ kf.map detailsOfFolder

/-- Of a run's calls, those whose item lies beneath the folder `a`: the
storage path of the call has `a` as a prefix (the spec's "items added
beneath it"). -/
def callsUnder (a : List Str) (calls : List FolderCall) : List FolderCall :=
  calls.filter fun c => decide (a <+: c.parent)

/-- The size, modified time and updated flag read off an optional folder
entry; an absent entry reads as the empty aggregate. -/
def entryStats (o : Option FolderEntryM) : Int × TimeT × Bool :=
  match o with
  | none => (0, 0, false)
  | some f => (f.info.size, f.info.modified, f.updated)

/-- The cache key of every entry is its folder's short ref. -/
def kvInv (kf : List (List Str × FolderEntryM)) : Prop :=
  ∀ kv ∈ kf, kv.2.shortRef = kv.1

def pathA : List Str := [['t'], ['o'], ['u'], ['f'], ['a']]

def callW : FolderCall :=
  { parent := [['t'], ['o'], ['u'], ['f'], ['a']]
    location := none
    info := { size := 5, modified := 3 }
    updated := true }

def callW2 : FolderCall :=
  { parent := [['t'], ['o'], ['u'], ['f'], ['a'], ['b']]
    location := none
    info := { size := 2, modified := 7 }
    updated := false }

end Details


/-! ### Concrete inputs used by the claim witnesses -/

def itemX0 : DriveItemM :=
  { id := ['x'], name := none, parentRef := none, root := false
    kind := .file, deleted := false }

def itemX1 : DriveItemM :=
  { id := ['x'], name := some ['n'], parentRef := none, root := false
    kind := .file, deleted := false }

def colWithX : CollectionM :=
  { fullPath := none, prevPath := none, driveItems := [(['x'], itemX0)]
    state := .stNew, doNotMergeItems := false }

def colEmpty : CollectionM := NewCollectionM none none false


def metaItemA : MetaItem :=
  { name := deltaURLsFileName, deltaDecode := some [(['d'], ['t'])]
    pathsDecode := none }

def metaItemB : MetaItem :=
  { name := previousPathFileName, deltaDecode := none
    pathsDecode := some [(['d'], [(['f'], ['p'])])] }

def metaItemDup : MetaItem :=
  { name := deltaURLsFileName, deltaDecode := some [(['d'], ['u'])]
    pathsDecode := none }

def metaColsW : List (List MetaItem) := [[metaItemA, metaItemB]]

def metaResW : MetaState :=
  ([(['d'], ['t'])], [(['d'], [(['f'], ['p'])])])


/-- Decidable equality for the metadata state pair (the nested product
defeats automatic instance search in this toolchain). -/
instance : DecidableEq MetaState := fun a b =>
  if h1 : a.1 = b.1 then
    if h2 : a.2 = b.2 then
      isTrue (by
        obtain ⟨x, y⟩ := a
        obtain ⟨z, w⟩ := b
        simp only at h1 h2
        rw [h1, h2])
    else isFalse (fun hc => h2 (by rw [hc]))
  else isFalse (fun hc => h1 (by rw [hc]))

/-- Decidable equality for `Except` results, used to evaluate the witnesses. -/
instance {ε α : Type} [DecidableEq ε] [DecidableEq α] :
    DecidableEq (Except ε α) := fun x y =>
  match x, y with
  | .ok a, .ok b =>
      if h : a = b then isTrue (by rw [h])
      else isFalse (fun hc => h (Except.ok.inj hc))
  | .error a, .error b =>
      if h : a = b then isTrue (by rw [h])
      else isFalse (fun hc => h (Except.error.inj hc))
  | .ok _, .error _ => isFalse (fun hc => Except.noConfusion hc)
  | .error _, .ok _ => isFalse (fun hc => Except.noConfusion hc)


def ctxW : UCtx :=
  { prefixElems := [['t'], ['o'], ['u'], ['f']]
    driveID := ['d']
    driveName := ['d']
    isOneDrive := true
    isLibraries := false
    matcherIsAny := true
    matcherMatches := fun _ => true
    oldPaths := []
    invalidPrevDelta := false }

def stEmpty : UCState :=
  { cmap := [], newPaths := [], excluded := [], itemColl := []
    numItems := 0, numFiles := 0, numContainers := 0 }

def itemF : DriveItemM :=
  { id := ['i'], name := some ['n']
    parentRef := some { pid := some ['c'], ppath := some ['p'] }
    root := false, kind := .file, deleted := false }

def cpathW : PathElems := [['t'], ['o'], ['u'], ['f'], ['d', 'r'], ['d'], ['r', 't']]

def stW1 : UCState :=
  (processFile ctxW stEmpty itemF ['c'] cpathW).toOption.getD stEmpty

def colP : CollectionM :=
  { fullPath := some cpathW, prevPath := none
    driveItems := [(['i'], itemF)], state := .stNew, doNotMergeItems := false }

def stMoveW : UCState :=
  { cmap := [(['p'], colP)], newPaths := [], excluded := []
    itemColl := [(['i'], ['p'])]
    numItems := 1, numFiles := 1, numContainers := 1 }

def stW2 : UCState :=
  (processFile ctxW stMoveW itemF ['c'] cpathW).toOption.getD stMoveW


/-- The two properties C5 asserts of the loaded metadata. -/
def GoodMeta (st : MetaState) : Prop :=
  (∀ k v, lookupA st.1 k = some v → v ≠ [])
  ∧ ∀ k, (lookupA st.1 k).isSome = (lookupA st.2 k).isSome

/-- The tombstone property of C3: every previously known container missing
from the new paths has a Deleted collection carrying its previous path. -/
def TombInv (oldPaths : List (Str × Str)) (st : UCState) : Prop :=
  ∀ i p, lookupA oldPaths i = some p → lookupA st.newPaths i = none →
    ∃ pp, parsePath p = some pp ∧ ∃ col, lookupA st.cmap i = some col
      ∧ col.fullPath = none ∧ col.prevPath = some pp
      ∧ col.state = CState.stDeleted


/-- Two collections with the same paths and state (the item index may
differ). -/
def SameShell (a b : CollectionM) : Prop :=
  a.fullPath = b.fullPath ∧ a.prevPath = b.prevPath ∧ a.state = b.state

def ctx3W : UCtx :=
  { prefixElems := [['t'], ['o'], ['u'], ['f']]
    driveID := ['d']
    driveName := ['d']
    isOneDrive := true
    isLibraries := false
    matcherIsAny := true
    matcherMatches := fun _ => true
    oldPaths := [(['X'], ['t', '/', 'o', '/', 'u', '/', 'f', '/', 'a'])]
    invalidPrevDelta := false }

def st3Fin : UCState :=
  (tombstonePhase true ctx3W.oldPaths stEmpty).toOption.getD stEmpty


/-! ## Theorems -/

@[simp] theorem lookupA_nil {κ α : Type} [DecidableEq κ] (k : κ) :
    lookupA ([] : List (κ × α)) k = none := rfl

theorem lookupA_cons {κ α : Type} [DecidableEq κ] (k' : κ) (v' : α) (rest : List (κ × α)) (k : κ) :
    lookupA ((k', v') :: rest) k = if k' = k then some v' else lookupA rest k := rfl

@[simp] theorem lookupA_insertA_self {κ α : Type} [DecidableEq κ] (m : List (κ × α)) (k : κ) (v : α) :
    lookupA (insertA m k v) k = some v := by
  induction m with
  | nil => simp [insertA, lookupA]
  | cons hd tl ih =>
      obtain ⟨k', v'⟩ := hd
      by_cases h : k' = k
      · simp [insertA, h, lookupA]
      · simp [insertA, h, lookupA, ih]

theorem lookupA_insertA_ne {κ α : Type} [DecidableEq κ] (m : List (κ × α)) (k j : κ) (v : α)
    (h : j ≠ k) : lookupA (insertA m k v) j = lookupA m j := by
  induction m with
  | nil => simp [insertA, lookupA, Ne.symm h]
  | cons hd tl ih =>
      obtain ⟨k', v'⟩ := hd
      by_cases hk : k' = k
      · subst hk
        simp [insertA, lookupA, Ne.symm h]
      · simp [insertA, hk, lookupA, ih]

theorem lookupA_eraseA_self {κ α : Type} [DecidableEq κ] (m : List (κ × α)) (k : κ) :
    lookupA (eraseA m k) k = none := by
  induction m with
  | nil => simp [eraseA]
  | cons hd tl ih =>
      obtain ⟨k', v'⟩ := hd
      by_cases h : k' = k
      · simp [eraseA, h, ih]
      · simp [eraseA, h, lookupA, ih]

theorem lookupA_eraseA_ne {κ α : Type} [DecidableEq κ] (m : List (κ × α)) (k j : κ)
    (h : j ≠ k) : lookupA (eraseA m k) j = lookupA m j := by
  induction m with
  | nil => simp [eraseA]
  | cons hd tl ih =>
      obtain ⟨k', v'⟩ := hd
      by_cases hk : k' = k
      · subst hk
        simp [eraseA, lookupA, Ne.symm h, ih]
      · simp [eraseA, hk, lookupA, ih]

theorem lookupA_mem {κ α : Type} [DecidableEq κ] {m : List (κ × α)} {k : κ} {v : α}
    (h : lookupA m k = some v) : (k, v) ∈ m := by
  induction m with
  | nil => simp [lookupA] at h
  | cons hd tl ih =>
      obtain ⟨k', v'⟩ := hd
      by_cases hk : k' = k
      · subst hk
        simp [lookupA] at h
        simp [h]
      · simp [lookupA, hk] at h
        exact List.mem_cons_of_mem _ (ih h)

theorem mem_insertA_of_ne {κ α : Type} [DecidableEq κ] {m : List (κ × α)} {k0 : κ} {v0 : α}
    (hm : (k0, v0) ∈ m) (k : κ) (v : α) (hne : k0 ≠ k) :
    (k0, v0) ∈ insertA m k v := by
  induction m with
  | nil => simp at hm
  | cons hd tl ih =>
      obtain ⟨k', v'⟩ := hd
      by_cases hk : k' = k
      · subst hk
        rcases List.mem_cons.mp hm with h | h
        · simp only [Prod.mk.injEq] at h
          exact absurd h.1 hne
        · simp only [insertA, if_pos rfl]
          exact List.mem_cons_of_mem _ h
      · rcases List.mem_cons.mp hm with h | h
        · rw [h]
          simp [insertA, hk]
        · simp only [insertA, if_neg hk]
          exact List.mem_cons_of_mem _ (ih h)

/-! ### `updatePath` (collections.go lines 821-843)

`updatePath(paths, id, newPath)`: if `paths[id]` is empty, set it; if equal to
`newPath`, no-op; otherwise rewrite every entry whose value has the old path as
a raw string prefix, substituting the new path for that prefix via
`strings.Replace(p, oldPath, newPath, 1)`. -/

theorem replaceOnce_eq_of_pref {old : Str} {s : Str} (new : Str)
    (h : old <+: s) : replaceOnce old new s = new ++ s.drop old.length := by
  cases s with
  | nil =>
      have hold : old = [] := List.prefix_nil.mp h
      subst hold
      simp [replaceOnce]
  | cons c rest =>
      simp [replaceOnce, if_pos h]

theorem ite_pair {α β : Type} (c : Prop) [Decidable c] (k : α) (x y : β) :
    (if c then (k, x) else (k, y)) = (k, if c then x else y) := by
  by_cases h : c <;> simp [h]

/-- Lookup after the conditional prefix-rewrite pass of `updatePath`. -/
theorem lookupA_condMap (m : List (Str × Str)) (old new k : Str) :
    lookupA (m.map fun kv =>
        if old <+: kv.2 then (kv.1, replaceOnce old new kv.2) else kv) k
      = (lookupA m k).map
          (fun v => if old <+: v then replaceOnce old new v else v) := by
  induction m with
  | nil => simp [lookupA]
  | cons hd tl ih =>
      obtain ⟨k', v'⟩ := hd
      simp only [List.map_cons, ite_pair]
      by_cases h : k' = k
      · subst h
        simp [lookupA]
      · simp [lookupA, h, ih]

/-- Membership of keys is monotone under `updatePath`: the rewrite pass only
changes values, and the insert pass adds key `id`. -/
theorem updatePath_isSome (paths : List (Str × Str)) (id newPath k : Str) :
    (lookupA (updatePath paths id newPath) k).isSome
      = ((lookupA paths k).isSome || k = id) := by
  simp only [updatePath]
  by_cases h0 : (lookupA paths id).getD [] = []
  · rw [if_pos h0]
    by_cases hk : k = id
    · subst hk
      simp
    · rw [lookupA_insertA_ne _ _ _ _ hk]
      simp [hk]
  · rw [if_neg h0]
    by_cases h1 : (lookupA paths id).getD [] = newPath
    · rw [if_pos h1]
      by_cases hk : k = id
      · subst hk
        cases hl : lookupA paths k with
        | none => exact absurd (by simp [hl]) h0
        | some v => simp [hl]
      · simp [hk]
    · rw [if_neg h1, lookupA_condMap]
      by_cases hk : k = id
      · subst hk
        cases hl : lookupA paths k with
        | none => exact absurd (by simp [hl]) h0
        | some v => simp [hl]
      · cases hl : lookupA paths k <;> simp [hk]

/-- C2: for a folder/package upsert processed by `UpdateCollections` whose new
path differs from its old path (`updatePath` with a nonempty old entry), every
entry of `newPaths` whose value had the old path as a prefix has that prefix
replaced by the new path; in particular the new path is a prefix of every such
rewritten entry. -/
theorem claim2_subtree_move (paths : List (Str × Str)) (id newPath old : Str)
    (hold : lookupA paths id = some old) (hne : old ≠ [])
    (hdiff : old ≠ newPath) (k v : Str) (hk : lookupA paths k = some v)
    (hpre : old <+: v) :
    lookupA (updatePath paths id newPath) k
        = some (newPath ++ v.drop old.length)
      ∧ newPath <+: (newPath ++ v.drop old.length) := by
  constructor
  · simp only [updatePath, hold, Option.getD_some]
    rw [if_neg hne, if_neg hdiff, lookupA_condMap, hk]
    simp [if_pos hpre, replaceOnce_eq_of_pref _ hpre]
  · exact List.prefix_append _ _

theorem claim2_witness :
    lookupA
        (updatePath [(['A'], ['r', '/', 'A']), (['B'], ['r', '/', 'A', '/', 'b'])]
          ['A'] ['r', '/', 'C'])
        ['B']
      = some (['r', '/', 'C'] ++ (['r', '/', 'A', '/', 'b'] : Str).drop 3)
      ∧ (['r', '/', 'C'] : Str) <+: (['r', '/', 'C'] ++ (['r', '/', 'A', '/', 'b'] : Str).drop 3) :=
  claim2_subtree_move
    [(['A'], ['r', '/', 'A']), (['B'], ['r', '/', 'A', '/', 'b'])]
    ['A'] ['r', '/', 'C'] ['r', '/', 'A']
    (by decide) (by decide) (by decide) ['B'] ['r', '/', 'A', '/', 'b']
    (by decide) (by decide)

/-! ### Drive items and collections (collections.go lines 489-1005) -/


theorem eraseA_insertA_of_none {κ α : Type} [DecidableEq κ]
    (m : List (κ × α)) (k : κ) (v : α) (h : lookupA m k = none) :
    eraseA (insertA m k v) k = m := by
  induction m with
  | nil => simp [insertA, eraseA]
  | cons hd tl ih =>
      obtain ⟨k', v'⟩ := hd
      by_cases hk : k' = k
      · subst hk
        simp [lookupA] at h
      · simp only [lookupA, hk, if_false, if_neg hk] at h ⊢
        simp [insertA, eraseA, hk, ih h]

theorem insertA_insertA_self {κ α : Type} [DecidableEq κ]
    (m : List (κ × α)) (k : κ) (v : α) :
    insertA (insertA m k v) k v = insertA m k v := by
  induction m with
  | nil => simp [insertA]
  | cons hd tl ih =>
      obtain ⟨k', v'⟩ := hd
      by_cases hk : k' = k
      · subst hk
        simp [insertA]
      · simp [insertA, hk, ih]

theorem mem_setInsert_self (s : List Str) (x : Str) : x ∈ setInsert s x := by
  by_cases h : x ∈ s <;> simp [setInsert, h]

theorem mem_setInsert_of_mem (s : List Str) (x y : Str) (h : y ∈ s) :
    y ∈ setInsert s x := by
  by_cases hx : x ∈ s <;> simp [setInsert, hx, h]

/-- C10 counterexample: when an item with the same id is already present,
`Add` returns false and the immediately following `Remove` returns true but
does not restore the prior membership (the pre-existing entry is gone). -/
theorem claim10_counterexample :
    (collAdd colWithX itemX1).2 = false
    ∧ (collRemove (collAdd colWithX itemX1).1 itemX1).2 = true
    ∧ (collRemove (collAdd colWithX itemX1).1 itemX1).1.driveItems
        ≠ colWithX.driveItems := by
  refine ⟨by decide, by decide, by decide⟩

/-- C10 (amended): `Collection.Add` returns true iff no item with the same id
was present; afterwards the item is stored under its id; an immediately
following `Remove` of the same item returns true; when no item with that id
was present before the `Add`, the `Remove` restores the prior item set; and
adding the same item twice leaves the item set identical to adding it once. -/
theorem claim10_theorem (c : CollectionM) (item : DriveItemM) :
    ((collAdd c item).2 = true ↔ lookupA c.driveItems item.id = none)
    ∧ lookupA (collAdd c item).1.driveItems item.id = some item
    ∧ (collRemove (collAdd c item).1 item).2 = true
    ∧ (lookupA c.driveItems item.id = none →
        (collRemove (collAdd c item).1 item).1.driveItems = c.driveItems)
    ∧ (collAdd (collAdd c item).1 item).1.driveItems
        = (collAdd c item).1.driveItems := by
  refine ⟨?_, ?_, ?_, ?_, ?_⟩
  · simp only [collAdd]
    cases h : lookupA c.driveItems item.id <;> simp [h]
  · simp [collAdd]
  · simp [collRemove, collAdd]
  · intro h
    simp only [collRemove, collAdd, lookupA_insertA_self, Option.isSome_some,
      if_pos]
    exact eraseA_insertA_of_none _ _ _ h
  · simp [collAdd, insertA_insertA_self]

theorem claim10_witness :
    (collRemove (collAdd colEmpty itemX0).1 itemX0).1.driveItems
      = colEmpty.driveItems :=
  (claim10_theorem colEmpty itemX0).2.2.2.1 (by decide)

/-- C9: `deserializeMap` is atomic on error: whenever it reports a decode
failure or a duplicate mapping, the accumulated map comes back unchanged;
entries are copied in only on success. -/
theorem claim9_theorem {α : Type} (content : Option (List (Str × α)))
    (acc : List (Str × α)) (e : DErr)
    (h : (deserializeMapGo content acc).1 = some e) :
    (deserializeMapGo content acc).2 = acc := by
  cases content with
  | none => rfl
  | some tmp =>
      simp only [deserializeMapGo] at h ⊢
      by_cases hd : tmp.any (fun kv => (lookupA acc kv.1).isSome)
      · simp [hd]
      · simp [hd] at h

theorem claim9_witness :
    (deserializeMapGo (some [(['d'], ['t'])]) [(['d'], ['u'])]).2
      = [(['d'], ['u'])] :=
  claim9_theorem (some [(['d'], ['t'])]) [(['d'], ['u'])]
    DErr.existingMapping (by decide)


/-! ### Metadata codec lemmas and claims C5, C6 -/

theorem lookupA_filter_keyq {κ α : Type} [DecidableEq κ]
    (l : List (κ × α)) (q : κ → Bool) (k : κ) :
    lookupA (l.filter fun kv => q kv.1) k
      = if q k then lookupA l k else none := by
  induction l with
  | nil => simp [lookupA]
  | cons hd tl ih =>
      obtain ⟨k', v'⟩ := hd
      by_cases hq : q k'
      · by_cases hk : k' = k
        · subst hk
          simp [lookupA, hq]
        · simp [lookupA, hq, hk, ih]
      · by_cases hk : k' = k
        · subst hk
          simp only [List.filter_cons]
          simp [lookupA, hq, ih]
        · simp only [List.filter_cons]
          simp [lookupA, hq, hk, ih]

theorem pruneMeta_noEmptyVal (st : MetaState) (k v : Str)
    (h : lookupA (pruneMeta st).1 k = some v) : v ≠ [] := by
  have hmem := lookupA_mem h
  simp only [pruneMeta] at hmem
  have hp := (List.mem_filter.mp hmem).2
  simp only [Bool.and_eq_true, Bool.not_eq_true'] at hp
  intro hv
  subst hv
  simp at hp

theorem pruneMeta_keysIff (st : MetaState) (k : Str) :
    (lookupA (pruneMeta st).1 k).isSome = (lookupA (pruneMeta st).2 k).isSome := by
  have hfold : (pruneMeta st).2
      = st.2.filter fun kv => (lookupA (pruneMeta st).1 kv.1).isSome := rfl
  rw [hfold, lookupA_filter_keyq st.2 (fun k1 => (lookupA (pruneMeta st).1 k1).isSome) k]
  cases hd : lookupA (pruneMeta st).1 k with
  | none => simp
  | some v =>
      have hmem := lookupA_mem hd
      simp only [pruneMeta] at hmem
      have hp := (List.mem_filter.mp hmem).2
      simp only [Bool.and_eq_true] at hp
      simp [hd, hp.2]

theorem goodMeta_prune (st : MetaState) : GoodMeta (pruneMeta st) :=
  ⟨pruneMeta_noEmptyVal st, pruneMeta_keysIff st⟩

theorem deserializeMetadata_good (cols : List (List MetaItem)) :
    ∀ (st res : MetaState), GoodMeta st →
      deserializeMetadata st cols = .ok res → GoodMeta res := by
  induction cols with
  | nil =>
      intro st res hg h
      simp only [deserializeMetadata, Except.ok.injEq] at h
      exact h ▸ hg
  | cons c rest ih =>
      intro st res hg h
      simp only [deserializeMetadata] at h
      cases hpi : processMetaItems st c with
      | error e => rw [hpi] at h; cases h
      | ok st1 =>
          rw [hpi] at h
          exact ih _ _ (goodMeta_prune st1) h

/-- C5: a metadata load that succeeds returns maps with no empty delta token
and with equal key sets (orphans on either side dropped). -/
theorem claim5_theorem (cols : List (List MetaItem)) (res : MetaState)
    (h : deserializeMetadata ([], []) cols = .ok res) :
    (∀ k v, lookupA res.1 k = some v → v ≠ [])
    ∧ ∀ k, (lookupA res.1 k).isSome = (lookupA res.2 k).isSome := by
  refine deserializeMetadata_good cols ([], []) res ⟨?_, ?_⟩ h
  · intro k v hv
    simp [lookupA] at hv
  · intro k
    simp [lookupA]

theorem claim5_witness :
    (∀ k v, lookupA metaResW.1 k = some v → v ≠ [])
    ∧ ∀ k, (lookupA metaResW.1 k).isSome = (lookupA metaResW.2 k).isSome :=
  claim5_theorem metaColsW metaResW (by decide)

theorem processMetaItems_append (st : MetaState) (xs ys : List MetaItem) :
    processMetaItems st (xs ++ ys)
      = match processMetaItems st xs with
        | .ok st1 => processMetaItems st1 ys
        | .error e => .error e := by
  induction xs generalizing st with
  | nil => simp [processMetaItems]
  | cons it rest ih =>
      simp only [List.cons_append, processMetaItems]
      cases processMetaItem st it with
      | error e => rfl
      | ok st1 => simp [ih]

theorem deserializeMetadata_append (st : MetaState)
    (xs ys : List (List MetaItem)) :
    deserializeMetadata st (xs ++ ys)
      = match deserializeMetadata st xs with
        | .ok st1 => deserializeMetadata st1 ys
        | .error e => .error e := by
  induction xs generalizing st with
  | nil => simp [deserializeMetadata]
  | cons c rest ih =>
      simp only [List.cons_append, deserializeMetadata]
      cases processMetaItems st c with
      | error e => rfl
      | ok st1 => simp [ih]

theorem processMetaItem_dupDelta (st : MetaState) (it : MetaItem)
    (tmp : List (Str × Str)) (hname : it.name = deltaURLsFileName)
    (hdec : it.deltaDecode = some tmp)
    (hdup : ∃ kv, kv ∈ tmp ∧ (lookupA st.1 kv.1).isSome = true) :
    processMetaItem st it = .error DErr.existingMapping := by
  have hne : ¬(deltaURLsFileName = previousPathFileName) := by decide
  obtain ⟨kv, hm, hs⟩ := hdup
  have hany : tmp.any (fun kv => (lookupA st.1 kv.1).isSome) = true :=
    List.any_eq_true.mpr ⟨kv, hm, hs⟩
  simp [processMetaItem, hname, hne, hdec, deserializeMapGo, hany]

theorem processMetaItem_dupPaths (st : MetaState) (it : MetaItem)
    (tmp : List (Str × List (Str × Str)))
    (hname : it.name = previousPathFileName)
    (hdec : it.pathsDecode = some tmp)
    (hdup : ∃ kv, kv ∈ tmp ∧ (lookupA st.2 kv.1).isSome = true) :
    processMetaItem st it = .error DErr.existingMapping := by
  obtain ⟨kv, hm, hs⟩ := hdup
  have hany : tmp.any (fun kv => (lookupA st.2 kv.1).isSome) = true :=
    List.any_eq_true.mpr ⟨kv, hm, hs⟩
  simp [processMetaItem, hname, hdec, deserializeMapGo, hany]

/-- C6: `deserializeMap` reports `errExistingMapping` exactly when a key of
the freshly decoded map is already accumulated, and `deserializeMetadata`
fails outright whenever a metadata file decodes to a drive id already
accumulated for the same kind of file (either kind). -/
theorem claim6_theorem :
    (∀ (tmp acc : List (Str × Str)),
        (deserializeMapGo (some tmp) acc).1 = some DErr.existingMapping
          ↔ ∃ kv, kv ∈ tmp ∧ (lookupA acc kv.1).isSome = true)
    ∧ (∀ (st0 : MetaState) (colsPre : List (List MetaItem))
        (thisPre : List MetaItem) (it : MetaItem) (thisPost : List MetaItem)
        (rest : List (List MetaItem)) (stA st1 : MetaState)
        (tmp : List (Str × Str)),
        deserializeMetadata st0 colsPre = .ok stA →
        processMetaItems stA thisPre = .ok st1 →
        it.name = deltaURLsFileName →
        it.deltaDecode = some tmp →
        (∃ kv, kv ∈ tmp ∧ (lookupA st1.1 kv.1).isSome = true) →
        deserializeMetadata st0 (colsPre ++ (thisPre ++ it :: thisPost) :: rest)
          = .error DErr.existingMapping)
    ∧ (∀ (st0 : MetaState) (colsPre : List (List MetaItem))
        (thisPre : List MetaItem) (it : MetaItem) (thisPost : List MetaItem)
        (rest : List (List MetaItem)) (stA st1 : MetaState)
        (tmp : List (Str × List (Str × Str))),
        deserializeMetadata st0 colsPre = .ok stA →
        processMetaItems stA thisPre = .ok st1 →
        it.name = previousPathFileName →
        it.pathsDecode = some tmp →
        (∃ kv, kv ∈ tmp ∧ (lookupA st1.2 kv.1).isSome = true) →
        deserializeMetadata st0 (colsPre ++ (thisPre ++ it :: thisPost) :: rest)
          = .error DErr.existingMapping) := by
  refine ⟨?_, ?_, ?_⟩
  · intro tmp acc
    simp only [deserializeMapGo]
    by_cases hd : (tmp.any fun kv => (lookupA acc kv.1).isSome) = true
    · rw [if_pos hd]
      exact ⟨fun _ => List.any_eq_true.mp hd, fun _ => rfl⟩
    · rw [if_neg hd]
      constructor
      · intro hc
        exact absurd hc (by simp)
      · intro hex
        exact absurd (List.any_eq_true.mpr hex) hd
  · intro st0 colsPre thisPre it thisPost rest stA st1 tmp hA hpre hname hdec hdup
    rw [deserializeMetadata_append, hA]
    simp only [deserializeMetadata]
    rw [processMetaItems_append, hpre]
    simp only [processMetaItems]
    rw [processMetaItem_dupDelta st1 it tmp hname hdec hdup]
  · intro st0 colsPre thisPre it thisPost rest stA st1 tmp hA hpre hname hdec hdup
    rw [deserializeMetadata_append, hA]
    simp only [deserializeMetadata]
    rw [processMetaItems_append, hpre]
    simp only [processMetaItems]
    rw [processMetaItem_dupPaths st1 it tmp hname hdec hdup]

theorem claim6_witness :
    deserializeMetadata ([], []) (metaColsW ++ ([metaItemDup]) :: [])
      = .error DErr.existingMapping :=
  claim6_theorem.2.1 ([], []) metaColsW [] metaItemDup [] [] metaResW metaResW
    [(['d'], ['u'])] (by decide) rfl rfl rfl
    ⟨(['d'], ['u']), by decide, by decide⟩

/-! ### Claim C1: persisted metadata pairing in Collections.Get -/

/-- C1 counterexample: a drive whose enumeration returns an empty delta URL
gets a persisted folder-paths entry but no delta entry, so the key sets of
the two persisted maps differ. -/
theorem claim1_counterexample :
    (lookupA (persistMetadata [(['d'], ⟨[], false⟩, [])]).2 ['d']).isSome = true
    ∧ (lookupA (persistMetadata [(['d'], ⟨[], false⟩, [])]).1 ['d']).isSome
        = false := by
  refine ⟨by decide, by decide⟩

theorem persist_fold_subset (results : List (Str × DeltaUpdate × List (Str × Str))) :
    ∀ acc, (∀ k, (lookupA acc.1 k).isSome = true → (lookupA acc.2 k).isSome = true) →
      ∀ k, (lookupA (results.foldl persistStep acc).1 k).isSome = true →
        (lookupA (results.foldl persistStep acc).2 k).isSome = true := by
  induction results with
  | nil => intro acc hacc k hk; exact hacc k hk
  | cons r rest ih =>
      intro acc hacc k
      simp only [List.foldl_cons]
      refine ih (persistStep acc r) ?_ k
      intro j hj
      simp only [persistStep] at hj ⊢
      by_cases hkj : j = r.1
      · subst hkj
        simp
      · rw [lookupA_insertA_ne _ _ _ _ hkj]
        by_cases hu : r.2.1.url ≠ []
        · rw [if_pos hu] at hj
          rw [lookupA_insertA_ne _ _ _ _ hkj] at hj
          exact hacc j hj
        · rw [if_neg hu] at hj
          exact hacc j hj

theorem persist_fold_untouched (results : List (Str × DeltaUpdate × List (Str × Str))) :
    ∀ acc k, (∀ r ∈ results, r.1 ≠ k) →
      lookupA (results.foldl persistStep acc).1 k = lookupA acc.1 k
      ∧ lookupA (results.foldl persistStep acc).2 k = lookupA acc.2 k := by
  induction results with
  | nil => intro acc k _; exact ⟨rfl, rfl⟩
  | cons r rest ih =>
      intro acc k hne
      simp only [List.foldl_cons]
      have hr : r.1 ≠ k := hne r (List.mem_cons_self r rest)
      have hk : k ≠ r.1 := Ne.symm hr
      obtain ⟨h1, h2⟩ := ih (persistStep acc r) k
        (fun r2 hr2 => hne r2 (List.mem_cons_of_mem r hr2))
      refine ⟨?_, ?_⟩
      · rw [h1]
        simp only [persistStep]
        by_cases hu : r.2.1.url ≠ []
        · rw [if_pos hu, lookupA_insertA_ne _ _ _ _ hk]
        · rw [if_neg hu]
      · rw [h2]
        simp only [persistStep]
        rw [lookupA_insertA_ne _ _ _ _ hk]

theorem persist_fold_entries (results : List (Str × DeltaUpdate × List (Str × Str))) :
    ∀ acc, (results.map (fun r => r.1)).Nodup →
      (∀ r ∈ results, lookupA acc.1 r.1 = none ∧ lookupA acc.2 r.1 = none) →
      ∀ r ∈ results,
        (lookupA (results.foldl persistStep acc).2 r.1).isSome = true
        ∧ ((lookupA (results.foldl persistStep acc).1 r.1).isSome = true
            ↔ r.2.1.url ≠ []) := by
  induction results with
  | nil => intro acc _ _ r hr; cases hr
  | cons r0 rest ih =>
      intro acc hnd hacc r hr
      simp only [List.map_cons, List.nodup_cons] at hnd
      simp only [List.foldl_cons]
      rcases List.mem_cons.mp hr with heq | hmem
      · subst heq
        have hns : ∀ r2 ∈ rest, r2.1 ≠ r.1 := by
          intro r2 hr2 hc
          exact hnd.1 (hc ▸ List.mem_map_of_mem (fun x => x.1) hr2)
        obtain ⟨h1, h2⟩ := persist_fold_untouched rest (persistStep acc r) r.1 hns
        rw [h1, h2]
        simp only [persistStep]
        constructor
        · simp
        · by_cases hu : r.2.1.url ≠ []
          · rw [if_pos hu]
            simp [hu]
          · rw [if_neg hu]
            have := (hacc r (List.mem_cons_self r rest)).1
            simp [this, hu]
      · refine ih (persistStep acc r0) hnd.2 ?_ r hmem
        intro r2 hr2
        have hne : r2.1 ≠ r0.1 := by
          intro hc
          exact hnd.1 (hc ▸ List.mem_map_of_mem (fun x => x.1) hr2)
        obtain ⟨ha1, ha2⟩ := hacc r2 (List.mem_cons_of_mem r0 hr2)
        simp only [persistStep]
        constructor
        · by_cases hu : r0.2.1.url ≠ []
          · rw [if_pos hu, lookupA_insertA_ne _ _ _ _ hne, ha1]
          · rw [if_neg hu, ha1]
        · rw [lookupA_insertA_ne _ _ _ _ hne, ha2]

/-- C1 (amended): the persisted delta keys are a subset of the persisted
folder-path keys: every enumerated drive gets a folder-paths entry, and it
gets a delta entry exactly when its returned delta URL is non-empty (the
original claims equality of the key sets, which fails when a drive returns
an empty delta URL: see the counterexample). -/
theorem claim1_theorem (results : List (Str × DeltaUpdate × List (Str × Str)))
    (hnd : (results.map (fun r => r.1)).Nodup) :
    (∀ k, (lookupA (persistMetadata results).1 k).isSome = true →
        (lookupA (persistMetadata results).2 k).isSome = true)
    ∧ ∀ r ∈ results,
        (lookupA (persistMetadata results).2 r.1).isSome = true
        ∧ ((lookupA (persistMetadata results).1 r.1).isSome = true
            ↔ r.2.1.url ≠ []) := by
  constructor
  · intro k hk
    exact persist_fold_subset results ([], []) (by intro j hj; simp [lookupA] at hj)
      k hk
  · exact persist_fold_entries results ([], []) hnd
      (by intro r _; exact ⟨rfl, rfl⟩)

theorem claim1_witness :
    (∀ k, (lookupA (persistMetadata [(['d'], ⟨['u'], false⟩, [(['f'], ['p'])])]).1 k).isSome = true →
        (lookupA (persistMetadata [(['d'], ⟨['u'], false⟩, [(['f'], ['p'])])]).2 k).isSome = true)
    ∧ ∀ r ∈ [(['d'], (⟨['u'], false⟩ : DeltaUpdate), [(['f'], ['p'])])],
        (lookupA (persistMetadata [(['d'], ⟨['u'], false⟩, [(['f'], ['p'])])]).2 r.1).isSome = true
        ∧ ((lookupA (persistMetadata [(['d'], ⟨['u'], false⟩, [(['f'], ['p'])])]).1 r.1).isSome = true
            ↔ r.2.1.url ≠ []) :=
  claim1_theorem [(['d'], ⟨['u'], false⟩, [(['f'], ['p'])])] (by decide)


/-! ### Claims C4 and C7: the file case of UpdateCollections -/

theorem fileExclusions_cmap (ctx : UCtx) (st : UCState) (item : DriveItemM) :
    (fileExclusions ctx st item).cmap = st.cmap := by
  unfold fileExclusions
  split <;> rfl

theorem fileExclusions_itemColl (ctx : UCtx) (st : UCState) (item : DriveItemM) :
    (fileExclusions ctx st item).itemColl = st.itemColl := by
  unfold fileExclusions
  split <;> rfl

theorem fileExclusions_excluded (ctx : UCtx) (st : UCState) (item : DriveItemM) :
    (fileExclusions ctx st item).excluded
      = if ctx.invalidPrevDelta then st.excluded
        else setInsert (setInsert st.excluded (item.id ++ dataSuffix))
          (item.id ++ metaSuffix) := by
  cases hb : ctx.invalidPrevDelta <;> simp [fileExclusions, hb]

theorem ensureFile_itemColl (ctx : UCtx) (st : UCState) (cid : Str)
    (cp : PathElems) (pp : Option PathElems) :
    (ensureFileCollection ctx st cid cp pp).itemColl = st.itemColl := by
  unfold ensureFileCollection
  split <;> rfl

theorem ensureFile_excluded (ctx : UCtx) (st : UCState) (cid : Str)
    (cp : PathElems) (pp : Option PathElems) :
    (ensureFileCollection ctx st cid cp pp).excluded = st.excluded := by
  unfold ensureFileCollection
  split <;> rfl

theorem ensureFile_cmap_self (ctx : UCtx) (st : UCState) (cid : Str)
    (cp : PathElems) (pp : Option PathElems) :
    (lookupA (ensureFileCollection ctx st cid cp pp).cmap cid).isSome = true := by
  by_cases h : (lookupA st.cmap cid).isSome = true
  · simp [ensureFileCollection, h]
  · simp only [ensureFileCollection, h, if_neg, if_false]
    simp

theorem ensureFile_cmap_ne (ctx : UCtx) (st : UCState) (cid : Str)
    (cp : PathElems) (pp : Option PathElems) (j : Str) (hj : j ≠ cid) :
    lookupA (ensureFileCollection ctx st cid cp pp).cmap j
      = lookupA st.cmap j := by
  by_cases h : (lookupA st.cmap cid).isSome = true
  · simp [ensureFileCollection, h]
  · simp only [ensureFileCollection, h, if_false]
    exact lookupA_insertA_ne _ _ _ _ hj

theorem finishFile_excluded (st : UCState) (item : DriveItemM) (cid : Str)
    (st1 : UCState) (h : finishFile st item cid = .ok st1) :
    st1.excluded = st.excluded := by
  simp only [finishFile] at h
  split at h <;>
    (simp only [Except.ok.injEq] at h; subst h; rfl)

theorem processFile_excluded (ctx : UCtx) (st : UCState) (item : DriveItemM)
    (cid : Str) (cpath : PathElems) (st1 : UCState)
    (h : processFile ctx st item cid cpath = .ok st1) :
    st1.excluded = (fileExclusions ctx st item).excluded := by
  simp only [processFile] at h
  split at h
  · simp only [Except.ok.injEq] at h
    subst h
    rfl
  · split at h
    · cases h
    · split at h
      · cases h
      · split at h
        · split at h
          · cases h
          · split at h
            · have := finishFile_excluded _ _ _ _ h
              rw [this, ensureFile_excluded]
            · cases h
        · have := finishFile_excluded _ _ _ _ h
          rw [this, ensureFile_excluded]

/-- C4: for every file event that reaches the file case of
`UpdateCollections` and completes, both the data-suffixed and meta-suffixed
ids are in the exclusion set when `invalidPrevDelta` is false, and the
exclusion set is untouched when `invalidPrevDelta` is true. -/
theorem claim4_theorem (ctx : UCtx) (st : UCState) (item : DriveItemM)
    (cid : Str) (cpath : PathElems) (st1 : UCState)
    (hok : processFile ctx st item cid cpath = .ok st1) :
    (ctx.invalidPrevDelta = false →
        (item.id ++ dataSuffix) ∈ st1.excluded
        ∧ (item.id ++ metaSuffix) ∈ st1.excluded)
    ∧ (ctx.invalidPrevDelta = true → st1.excluded = st.excluded) := by
  have hex := processFile_excluded ctx st item cid cpath st1 hok
  rw [fileExclusions_excluded] at hex
  constructor
  · intro hi
    rw [hex, if_neg (by simp [hi])]
    exact ⟨mem_setInsert_of_mem _ _ _ (mem_setInsert_self _ _),
      mem_setInsert_self _ _⟩
  · intro hi
    rw [hex, if_pos hi]

theorem claim4_witness :
    ((ctxW.invalidPrevDelta = false →
        (itemF.id ++ dataSuffix) ∈ stW1.excluded
        ∧ (itemF.id ++ metaSuffix) ∈ stW1.excluded)
    ∧ (ctxW.invalidPrevDelta = true → stW1.excluded = stEmpty.excluded)) :=
  claim4_theorem ctxW stEmpty itemF ['c'] cpathW stW1 (by decide)

theorem finishFile_ok_result (st : UCState) (item : DriveItemM) (cid : Str)
    (col : CollectionM) (hcol : lookupA st.cmap cid = some col) :
    finishFile st item cid = .ok { st with
      itemColl := insertA st.itemColl item.id cid
      cmap := insertA st.cmap cid (collAdd col item).1
      numItems := if (collAdd col item).2 then st.numItems + 1 else st.numItems
      numFiles := if (collAdd col item).2 then st.numFiles + 1 else st.numFiles } := by
  simp only [finishFile, hcol]

/-- C7: for a file upsert whose id is registered under a previous collection
id in `itemCollection`, the reconciler errors when that collection is missing
from the map (unless the lazy creation just made it) or when the item cannot
be removed from it; on success the item has been removed from the old
collection and inserted into the new one. -/
theorem claim7_theorem (ctx : UCtx) (st : UCState) (item : DriveItemM)
    (cid : Str) (cpath : PathElems) (pcid : Str)
    (hdel : item.deleted = false)
    (hic : lookupA st.itemColl item.id = some pcid) :
    (lookupA st.cmap pcid = none → pcid ≠ cid →
        ∀ st1, processFile ctx st item cid cpath ≠ .ok st1)
    ∧ (∀ pcol, lookupA st.cmap pcid = some pcol →
        lookupA pcol.driveItems item.id = none →
        ∀ st1, processFile ctx st item cid cpath ≠ .ok st1)
    ∧ (∀ st1, processFile ctx st item cid cpath = .ok st1 →
        (pcid ≠ cid → ∃ pcol1, lookupA st1.cmap pcid = some pcol1
            ∧ lookupA pcol1.driveItems item.id = none)
        ∧ ∃ ncol, lookupA st1.cmap cid = some ncol
            ∧ lookupA ncol.driveItems item.id = some item) := by
  have hic0 : ∀ pp, lookupA (ensureFileCollection ctx (fileExclusions ctx st item)
      cid cpath pp).itemColl item.id = some pcid := by
    intro pp
    rw [ensureFile_itemColl, fileExclusions_itemColl]
    exact hic
  refine ⟨?_, ?_, ?_⟩
  · intro hnone hneq st1 hok
    simp only [processFile, hdel, Bool.false_eq_true, if_false] at hok
    cases hto : toOneDrivePath cpath with
    | error e => simp [hto] at hok
    | ok od =>
        simp only [hto] at hok
        cases hpr : filePrevPathRes ctx cid cpath od with
        | error e => simp [hpr] at hok
        | ok pp =>
            simp only [hpr, hic0] at hok
            have hpc : lookupA (ensureFileCollection ctx
                (fileExclusions ctx st item) cid cpath pp).cmap pcid = none := by
              rw [ensureFile_cmap_ne _ _ _ _ _ _ hneq, fileExclusions_cmap]
              exact hnone
            simp [hpc] at hok
  · intro pcol hsome hnotin st1 hok
    simp only [processFile, hdel, Bool.false_eq_true, if_false] at hok
    cases hto : toOneDrivePath cpath with
    | error e => simp [hto] at hok
    | ok od =>
        simp only [hto] at hok
        cases hpr : filePrevPathRes ctx cid cpath od with
        | error e => simp [hpr] at hok
        | ok pp =>
            simp only [hpr, hic0] at hok
            have hpc : lookupA (ensureFileCollection ctx
                (fileExclusions ctx st item) cid cpath pp).cmap pcid
                  = some pcol := by
              by_cases hpq : pcid = cid
              · subst hpq
                simp [ensureFileCollection, fileExclusions_cmap, hsome]
              · rw [ensureFile_cmap_ne _ _ _ _ _ _ hpq, fileExclusions_cmap]
                exact hsome
            simp [hpc, collRemove, hnotin] at hok
  · intro st1 hok
    simp only [processFile, hdel, Bool.false_eq_true, if_false] at hok
    cases hto : toOneDrivePath cpath with
    | error e => simp [hto] at hok
    | ok od =>
        simp only [hto] at hok
        cases hpr : filePrevPathRes ctx cid cpath od with
        | error e => simp [hpr] at hok
        | ok pp =>
            simp only [hpr, hic0] at hok
            set stE := ensureFileCollection ctx (fileExclusions ctx st item)
              cid cpath pp with hstE
            cases hpc : lookupA stE.cmap pcid with
            | none => simp [hpc] at hok
            | some pcol =>
                simp only [hpc] at hok
                by_cases hin : (lookupA pcol.driveItems item.id).isSome = true
                · have hrem : (collRemove pcol item).2 = true := by
                    simp [collRemove, hin]
                  rw [if_pos hrem] at hok
                  have hrem1 : (collRemove pcol item).1
                      = { pcol with driveItems := eraseA pcol.driveItems item.id } := by
                    simp [collRemove, hin]
                  have hcm : ({ stE with cmap := insertA stE.cmap pcid (collRemove pcol item).1 } : UCState).cmap = insertA stE.cmap pcid (collRemove pcol item).1 := rfl
                  have HC : (lookupA ({ stE with cmap := insertA stE.cmap pcid (collRemove pcol item).1 } : UCState).cmap cid).isSome = true := by
                    rw [hcm]
                    by_cases hpq : pcid = cid
                    · subst hpq
                      simp
                    · rw [lookupA_insertA_ne _ _ _ _ (Ne.symm hpq)]
                      rw [hstE]
                      exact ensureFile_cmap_self ctx _ cid cpath pp
                  obtain ⟨col, hcol⟩ := Option.isSome_iff_exists.mp HC
                  rw [finishFile_ok_result _ item cid col hcol] at hok
                  simp only [Except.ok.injEq] at hok
                  subst hok
                  constructor
                  · intro hpq
                    refine ⟨(collRemove pcol item).1, ?_, ?_⟩
                    · show lookupA (insertA ({ stE with cmap := insertA stE.cmap pcid (collRemove pcol item).1 } : UCState).cmap cid (collAdd col item).1) pcid = some ((collRemove pcol item).1)
                      rw [lookupA_insertA_ne _ _ _ _ hpq, hcm]
                      exact lookupA_insertA_self _ _ _
                    · rw [hrem1]
                      exact lookupA_eraseA_self _ _
                  · refine ⟨(collAdd col item).1, ?_, ?_⟩
                    · show lookupA (insertA ({ stE with cmap := insertA stE.cmap pcid (collRemove pcol item).1 } : UCState).cmap cid (collAdd col item).1) cid = some ((collAdd col item).1)
                      exact lookupA_insertA_self _ _ _
                    · show lookupA (insertA col.driveItems item.id item) item.id
                        = some item
                      exact lookupA_insertA_self _ _ _
                · have hrem : (collRemove pcol item).2 = false := by
                    simp only [Bool.not_eq_true] at hin
                    simp [collRemove, hin]
                  simp [hrem] at hok

theorem claim7_witness :
    ((['p'] : Str) ≠ ['c'] → ∃ pcol1, lookupA stW2.cmap ['p'] = some pcol1
        ∧ lookupA pcol1.driveItems itemF.id = none)
    ∧ ∃ ncol, lookupA stW2.cmap ['c'] = some ncol
        ∧ lookupA ncol.driveItems itemF.id = some itemF :=
  (claim7_theorem ctxW stMoveW itemF ['c'] cpathW ['p'] (by decide)
    (by decide)).2.2 stW2 (by decide)


/-! ### Claim C3: tombstones in Collections.Get -/

theorem collAdd_shell (c : CollectionM) (item : DriveItemM) :
    SameShell (collAdd c item).1 c := by
  exact ⟨rfl, rfl, rfl⟩

theorem collRemove_shell (c : CollectionM) (item : DriveItemM) :
    SameShell (collRemove c item).1 c := by
  by_cases h : (lookupA c.driveItems item.id).isSome = true <;>
    simp [collRemove, h, SameShell]

theorem sameShell_trans {a b c : CollectionM} (h1 : SameShell a b)
    (h2 : SameShell b c) : SameShell a c :=
  ⟨h1.1.trans h2.1, h1.2.1.trans h2.2.1, h1.2.2.trans h2.2.2⟩

theorem tombFold_error (m : List Str) (e : UErr) (l : List (Str × Str)) :
    List.foldl (tombStep m) (.error e) l = .error e := by
  induction l with
  | nil => rfl
  | cons x rest ih =>
      simp only [List.foldl_cons, tombStep]
      exact ih

theorem tombStep_ok_newPaths (m : List Str) (st st2 : UCState) (e : Str × Str)
    (h : tombStep m (.ok st) e = .ok st2) (k : Str) :
    (lookupA st2.newPaths k).isSome = (lookupA st.newPaths k).isSome := by
  simp only [tombStep] at h
  by_cases h1 : (lookupA st.newPaths e.1).isSome = true
  · rw [if_pos h1] at h
    simp only [Except.ok.injEq] at h
    subst h
    rfl
  · rw [if_neg h1] at h
    by_cases h2 : e.2 ∈ m
    · rw [if_pos h2] at h
      simp only [Except.ok.injEq] at h
      subst h
      rfl
    · rw [if_neg h2] at h
      cases hp : parsePath e.2 with
      | none => simp [hp] at h
      | some pp =>
          simp only [hp, Except.ok.injEq] at h
          subst h
          by_cases hk : k = e.1
          · subst hk
            rw [lookupA_eraseA_self]
            simp only [Bool.not_eq_true] at h1
            simp [h1]
          · rw [lookupA_eraseA_ne _ _ _ hk]

theorem tombStep_ok_cmap_ne (m : List Str) (st st2 : UCState) (e : Str × Str)
    (h : tombStep m (.ok st) e = .ok st2) (k : Str) (hk : e.1 ≠ k) :
    lookupA st2.cmap k = lookupA st.cmap k := by
  simp only [tombStep] at h
  by_cases h1 : (lookupA st.newPaths e.1).isSome = true
  · rw [if_pos h1] at h
    simp only [Except.ok.injEq] at h
    subst h
    rfl
  · rw [if_neg h1] at h
    by_cases h2 : e.2 ∈ m
    · rw [if_pos h2] at h
      simp only [Except.ok.injEq] at h
      subst h
      rfl
    · rw [if_neg h2] at h
      cases hp : parsePath e.2 with
      | none => simp [hp] at h
      | some pp =>
          simp only [hp, Except.ok.injEq] at h
          subst h
          exact lookupA_insertA_ne _ _ _ _ (Ne.symm hk)

theorem tombFold_ok_newPaths (m : List Str) (l : List (Str × Str)) :
    ∀ (st st2 : UCState), List.foldl (tombStep m) (.ok st) l = .ok st2 →
      ∀ k, (lookupA st2.newPaths k).isSome = (lookupA st.newPaths k).isSome := by
  induction l with
  | nil =>
      intro st st2 h k
      simp only [List.foldl_nil, Except.ok.injEq] at h
      subst h
      rfl
  | cons x rest ih =>
      intro st st2 h k
      simp only [List.foldl_cons] at h
      cases hstep : tombStep m (.ok st) x with
      | error e =>
          rw [hstep, tombFold_error] at h
          cases h
      | ok stx =>
          rw [hstep] at h
          rw [ih stx st2 h k, tombStep_ok_newPaths m st stx x hstep k]

theorem tombFold_ok_cmap (m : List Str) (l : List (Str × Str)) :
    ∀ (st st2 : UCState) (k : Str), List.foldl (tombStep m) (.ok st) l = .ok st2 →
      (∀ e ∈ l, e.1 ≠ k) → lookupA st2.cmap k = lookupA st.cmap k := by
  induction l with
  | nil =>
      intro st st2 k h _
      simp only [List.foldl_nil, Except.ok.injEq] at h
      subst h
      rfl
  | cons x rest ih =>
      intro st st2 k h hne
      simp only [List.foldl_cons] at h
      cases hstep : tombStep m (.ok st) x with
      | error e =>
          rw [hstep, tombFold_error] at h
          cases h
      | ok stx =>
          rw [hstep] at h
          rw [ih stx st2 k h (fun e he => hne e (List.mem_cons_of_mem x he)),
            tombStep_ok_cmap_ne m st stx x hstep k
              (hne x (List.mem_cons_self x rest))]

theorem lookupA_split {κ α : Type} [DecidableEq κ] {m : List (κ × α)} {k : κ}
    {v : α} (h : lookupA m k = some v) :
    ∃ pre post, m = pre ++ (k, v) :: post ∧ ∀ e ∈ pre, e.1 ≠ k := by
  induction m with
  | nil => simp [lookupA] at h
  | cons hd tl ih =>
      obtain ⟨k', v'⟩ := hd
      by_cases hk : k' = k
      · subst hk
        rw [lookupA_cons, if_pos rfl] at h
        have hv := Option.some.inj h
        subst hv
        exact ⟨[], tl, rfl, by intro e he; cases he⟩
      · simp only [lookupA, hk, if_false, if_neg hk] at h
        obtain ⟨pre, post, heq, hpre⟩ := ih h
        refine ⟨(k', v') :: pre, post, by rw [heq]; rfl, ?_⟩
        intro e he
        rcases List.mem_cons.mp he with h1 | h1
        · rw [h1]
          exact hk
        · exact hpre e h1

theorem updateCollectionPaths_tomb (id : Str) (cmap : List (Str × CollectionM))
    (curPath : PathElems) (found : Bool) (cmap2 : List (Str × CollectionM))
    (h : updateCollectionPaths id cmap curPath = .ok (found, cmap2))
    (i : Str) (hne : i ≠ id) (col : CollectionM)
    (hcol : lookupA cmap i = some col) (hfp : col.fullPath = none) :
    lookupA cmap2 i = some col := by
  simp only [updateCollectionPaths] at h
  cases hid : lookupA cmap id with
  | none =>
      simp only [hid, Except.ok.injEq, Prod.mk.injEq] at h
      rw [← h.2]
      exact hcol
  | some c =>
      simp only [hid] at h
      cases hcf : c.fullPath with
      | none => simp [hcf] at h
      | some initial =>
          simp only [hcf] at h
          by_cases hre : renderP initial = renderP curPath
          · rw [if_pos hre] at h
            simp only [Except.ok.injEq, Prod.mk.injEq] at h
            rw [← h.2]
            exact hcol
          · rw [if_neg hre] at h
            have hmem : (i, col) ∈ insertA cmap id (setFullPath c curPath) :=
              mem_insertA_of_ne (lookupA_mem hcol) id _ hne
            have hany : ((insertA cmap id (setFullPath c curPath)).any
                (fun kv => !(kv.1 == id) && kv.2.fullPath.isNone)) = true := by
              refine List.any_eq_true.mpr ⟨(i, col), hmem, ?_⟩
              simp [hne, hfp]
            rw [if_pos hany] at h
            cases h

theorem ensureFile_preserve (ctx : UCtx) (st : UCState) (cid : Str)
    (cp : PathElems) (pp : Option PathElems) (i : Str) (col : CollectionM)
    (hcol : lookupA st.cmap i = some col) :
    lookupA (ensureFileCollection ctx st cid cp pp).cmap i = some col := by
  by_cases hc : (lookupA st.cmap cid).isSome = true
  · simp [ensureFileCollection, hc, hcol]
  · simp only [ensureFileCollection, hc, Bool.false_eq_true, if_false]
    by_cases hi : i = cid
    · subst hi
      rw [hcol] at hc
      simp at hc
    · show lookupA (insertA st.cmap cid
        (NewCollectionM (some cp) pp ctx.invalidPrevDelta)) i = some col
      rw [lookupA_insertA_ne _ _ _ _ hi]
      exact hcol

theorem finishFile_preserve (st : UCState) (item : DriveItemM) (cid : Str)
    (st1 : UCState) (h : finishFile st item cid = .ok st1) (i : Str)
    (col : CollectionM) (hcol : lookupA st.cmap i = some col) :
    ∃ col2, lookupA st1.cmap i = some col2 ∧ SameShell col2 col := by
  simp only [finishFile] at h
  cases hlk : lookupA st.cmap cid with
  | none =>
      simp only [hlk, Except.ok.injEq] at h
      subst h
      exact ⟨col, hcol, ⟨rfl, rfl, rfl⟩⟩
  | some colC =>
      simp only [hlk, Except.ok.injEq] at h
      subst h
      by_cases hi : i = cid
      · subst hi
        rw [hcol] at hlk
        have hcc : colC = col := (Option.some.inj hlk).symm
        subst hcc
        refine ⟨(collAdd colC item).1, ?_, collAdd_shell colC item⟩
        show lookupA (insertA st.cmap i (collAdd colC item).1) i
          = some ((collAdd colC item).1)
        exact lookupA_insertA_self _ _ _
      · refine ⟨col, ?_, ⟨rfl, rfl, rfl⟩⟩
        show lookupA (insertA st.cmap cid (collAdd colC item).1) i = some col
        rw [lookupA_insertA_ne _ _ _ _ hi]
        exact hcol


theorem fileExclusions_newPaths (ctx : UCtx) (st : UCState) (item : DriveItemM) :
    (fileExclusions ctx st item).newPaths = st.newPaths := by
  unfold fileExclusions
  split <;> rfl

theorem ensureFile_newPaths (ctx : UCtx) (st : UCState) (cid : Str)
    (cp : PathElems) (pp : Option PathElems) :
    (ensureFileCollection ctx st cid cp pp).newPaths = st.newPaths := by
  unfold ensureFileCollection
  split <;> rfl

theorem finishFile_newPaths (st : UCState) (item : DriveItemM) (cid : Str)
    (st1 : UCState) (h : finishFile st item cid = .ok st1) :
    st1.newPaths = st.newPaths := by
  simp only [finishFile] at h
  split at h <;>
    (simp only [Except.ok.injEq] at h; subst h; rfl)

theorem processFile_newPaths (ctx : UCtx) (st : UCState) (item : DriveItemM)
    (cid : Str) (cpath : PathElems) (st1 : UCState)
    (h : processFile ctx st item cid cpath = .ok st1) :
    st1.newPaths = st.newPaths := by
  simp only [processFile] at h
  split at h
  · simp only [Except.ok.injEq] at h
    subst h
    exact fileExclusions_newPaths ctx st item
  · split at h
    · cases h
    · split at h
      · cases h
      · split at h
        · split at h
          · cases h
          · split at h
            · rw [finishFile_newPaths _ _ _ _ h, ensureFile_newPaths,
                fileExclusions_newPaths]
            · cases h
        · rw [finishFile_newPaths _ _ _ _ h, ensureFile_newPaths,
            fileExclusions_newPaths]

theorem processFile_tombPreserve (ctx : UCtx) (st : UCState) (item : DriveItemM)
    (cid : Str) (cpath : PathElems) (st1 : UCState)
    (h : processFile ctx st item cid cpath = .ok st1) (i : Str)
    (col : CollectionM) (hcol : lookupA st.cmap i = some col) :
    ∃ col2, lookupA st1.cmap i = some col2 ∧ SameShell col2 col := by
  have hc0 : lookupA (fileExclusions ctx st item).cmap i = some col := by
    rw [fileExclusions_cmap]
    exact hcol
  simp only [processFile] at h
  by_cases hd : item.deleted = true
  · rw [if_pos hd] at h
    simp only [Except.ok.injEq] at h
    subst h
    exact ⟨col, hc0, ⟨rfl, rfl, rfl⟩⟩
  · rw [if_neg hd] at h
    cases hto : toOneDrivePath cpath with
    | error e => simp [hto] at h
    | ok od =>
        simp only [hto] at h
        cases hpr : filePrevPathRes ctx cid cpath od with
        | error e => simp [hpr] at h
        | ok pp =>
            simp only [hpr] at h
            set stE := ensureFileCollection ctx (fileExclusions ctx st item)
              cid cpath pp with hstE
            have hcE : lookupA stE.cmap i = some col := by
              rw [hstE]
              exact ensureFile_preserve ctx _ cid cpath pp i col hc0
            cases hil : lookupA stE.itemColl item.id with
            | none =>
                simp only [hil] at h
                exact finishFile_preserve stE item cid st1 h i col hcE
            | some pcid2 =>
                simp only [hil] at h
                cases hpc : lookupA stE.cmap pcid2 with
                | none => simp [hpc] at h
                | some pcol =>
                    simp only [hpc] at h
                    by_cases hrm : (collRemove pcol item).2 = true
                    · rw [if_pos hrm] at h
                      by_cases hip2 : i = pcid2
                      · subst hip2
                        have hpe : pcol = col := by
                          rw [hcE] at hpc
                          exact (Option.some.inj hpc).symm
                        have hmid : lookupA ({ stE with cmap := insertA stE.cmap i (collRemove pcol item).1 } : UCState).cmap i = some ((collRemove pcol item).1) := by
                          show lookupA (insertA stE.cmap i (collRemove pcol item).1) i
                            = some ((collRemove pcol item).1)
                          exact lookupA_insertA_self _ _ _
                        obtain ⟨col2, hc2, hsh⟩ :=
                          finishFile_preserve _ item cid st1 h i _ hmid
                        refine ⟨col2, hc2, sameShell_trans hsh ?_⟩
                        rw [← hpe]
                        exact collRemove_shell pcol item
                      · have hmid : lookupA ({ stE with cmap := insertA stE.cmap pcid2 (collRemove pcol item).1 } : UCState).cmap i = some col := by
                          show lookupA (insertA stE.cmap pcid2 (collRemove pcol item).1) i
                            = some col
                          rw [lookupA_insertA_ne _ _ _ _ hip2]
                          exact hcE
                        exact finishFile_preserve _ item cid st1 h i col hmid
                    · rw [if_neg hrm] at h
                      cases h

theorem processFile_inv (ctx : UCtx) (st st2 : UCState) (item : DriveItemM)
    (cid : Str) (cpath : PathElems)
    (h : processFile ctx st item cid cpath = .ok st2)
    (hinv : TombInv ctx.oldPaths st) : TombInv ctx.oldPaths st2 := by
  intro i p hip habs
  have hnp := processFile_newPaths ctx st item cid cpath st2 h
  rw [hnp] at habs
  obtain ⟨pp, hpp, col, hcol, h1, h2, h3⟩ := hinv i p hip habs
  obtain ⟨col2, hcol2, hsh⟩ :=
    processFile_tombPreserve ctx st item cid cpath st2 h i col hcol
  exact ⟨pp, hpp, col2, hcol2, hsh.1.trans h1, hsh.2.1.trans h2,
    hsh.2.2.trans h3⟩

theorem processFolder_inv (ctx : UCtx) (st st2 : UCState) (item : DriveItemM)
    (itemPath : Option PathElems)
    (h : processFolder ctx st item itemPath = .ok st2)
    (hinv : TombInv ctx.oldPaths st) : TombInv ctx.oldPaths st2 := by
  simp only [processFolder] at h
  cases hprev : folderPrevPathRes ctx item.id with
  | error e => simp only [hprev] at h; cases h
  | ok prevPath =>
      simp only [hprev] at h
      by_cases hd : item.deleted = true
      · rw [if_pos hd] at h
        cases prevPath with
        | none =>
            simp only [Except.ok.injEq] at h
            subst h
            intro i p hip habs
            by_cases hi : i = item.id
            · exfalso
              subst hi
              simp only [folderPrevPathRes, hip] at hprev
              cases hpp : parsePath p with
              | none => simp [hpp] at hprev
              | some pp => simp [hpp] at hprev
            · have habs2 : lookupA st.newPaths i = none := by
                have he : lookupA (eraseA st.newPaths item.id) i
                    = lookupA st.newPaths i := lookupA_eraseA_ne _ _ _ hi
                rw [← he]
                exact habs
              exact hinv i p hip habs2
        | some pp =>
            simp only [Except.ok.injEq] at h
            subst h
            intro i p hip habs
            by_cases hi : i = item.id
            · subst hi
              simp only [folderPrevPathRes, hip] at hprev
              cases hpp : parsePath p with
              | none => simp [hpp] at hprev
              | some pp2 =>
                  simp only [hpp] at hprev
                  have hpe : pp2 = pp := by simpa using hprev
                  subst hpe
                  refine ⟨pp2, rfl,
                    NewCollectionM none (some pp2) ctx.invalidPrevDelta, ?_,
                    rfl, rfl, rfl⟩
                  show lookupA (insertA st.cmap item.id
                    (NewCollectionM none (some pp2) ctx.invalidPrevDelta))
                    item.id = some (NewCollectionM none (some pp2) ctx.invalidPrevDelta)
                  exact lookupA_insertA_self _ _ _
            · have habs2 : lookupA st.newPaths i = none := by
                have he : lookupA (eraseA st.newPaths item.id) i
                    = lookupA st.newPaths i := lookupA_eraseA_ne _ _ _ hi
                rw [← he]
                exact habs
              obtain ⟨pp0, hpp0, col, hcol, h1, h2, h3⟩ := hinv i p hip habs2
              refine ⟨pp0, hpp0, col, ?_, h1, h2, h3⟩
              show lookupA (insertA st.cmap item.id
                (NewCollectionM none (some pp) ctx.invalidPrevDelta)) i = some col
              rw [lookupA_insertA_ne _ _ _ _ hi]
              exact hcol
      · rw [if_neg hd] at h
        cases itemPath with
        | none => cases h
        | some ip =>
            cases hu : updateCollectionPaths item.id st.cmap ip with
            | error e => simp only [hu] at h; cases h
            | ok pr =>
                obtain ⟨found, cmap1⟩ := pr
                simp only [hu] at h
                have key : st2.newPaths = updatePath st.newPaths item.id (renderP ip)
                    ∧ ∀ j, j ≠ item.id → lookupA st2.cmap j = lookupA cmap1 j := by
                  by_cases hf : found = true
                  · rw [if_pos hf] at h
                    by_cases ho : ctx.isOneDrive = true
                    · simp only [ho, Bool.not_true, Bool.false_eq_true, if_false] at h
                      cases hcl : lookupA cmap1 item.id with
                      | none =>
                          simp only [hcl, Except.ok.injEq] at h
                          subst h
                          exact ⟨rfl, fun j hj => rfl⟩
                      | some c =>
                          simp only [hcl, Except.ok.injEq] at h
                          subst h
                          refine ⟨rfl, fun j hj => ?_⟩
                          show lookupA (insertA cmap1 item.id (collAdd c item).1) j
                            = lookupA cmap1 j
                          exact lookupA_insertA_ne _ _ _ _ hj
                    · have ho2 : ctx.isOneDrive = false := by simpa using ho
                      simp only [ho2, Bool.not_false] at h
                      rw [if_pos trivial] at h
                      simp only [Except.ok.injEq] at h
                      subst h
                      exact ⟨rfl, fun j hj => rfl⟩
                  · have hf2 : found = false := by simpa using hf
                    subst hf2
                    simp only [Bool.false_eq_true, if_false] at h
                    by_cases ho : ctx.isOneDrive = true
                    · simp only [ho, Bool.not_true, Bool.false_eq_true, if_false] at h
                      cases hcl : lookupA (insertA cmap1 item.id
                          (NewCollectionM (some ip) prevPath ctx.invalidPrevDelta))
                          item.id with
                      | none =>
                          simp only [hcl, Except.ok.injEq] at h
                          subst h
                          refine ⟨rfl, fun j hj => ?_⟩
                          show lookupA (insertA cmap1 item.id
                            (NewCollectionM (some ip) prevPath ctx.invalidPrevDelta)) j
                            = lookupA cmap1 j
                          exact lookupA_insertA_ne _ _ _ _ hj
                      | some c =>
                          simp only [hcl, Except.ok.injEq] at h
                          subst h
                          refine ⟨rfl, fun j hj => ?_⟩
                          show lookupA (insertA (insertA cmap1 item.id
                            (NewCollectionM (some ip) prevPath ctx.invalidPrevDelta))
                            item.id (collAdd c item).1) j = lookupA cmap1 j
                          rw [lookupA_insertA_ne _ _ _ _ hj,
                            lookupA_insertA_ne _ _ _ _ hj]
                    · have ho2 : ctx.isOneDrive = false := by simpa using ho
                      simp only [ho2, Bool.not_false] at h
                      rw [if_pos trivial] at h
                      simp only [Except.ok.injEq] at h
                      subst h
                      refine ⟨rfl, fun j hj => ?_⟩
                      show lookupA (insertA cmap1 item.id
                        (NewCollectionM (some ip) prevPath ctx.invalidPrevDelta)) j
                        = lookupA cmap1 j
                      exact lookupA_insertA_ne _ _ _ _ hj
                intro i p hip habs
                by_cases hi : i = item.id
                · exfalso
                  subst hi
                  have h1 := updatePath_isSome st.newPaths item.id (renderP ip) item.id
                  rw [← key.1, habs] at h1
                  simp at h1
                · have habs0 : lookupA st.newPaths i = none := by
                    have h1 := updatePath_isSome st.newPaths item.id (renderP ip) i
                    rw [← key.1, habs] at h1
                    cases hl : lookupA st.newPaths i with
                    | none => rfl
                    | some v => rw [hl] at h1; simp [hi] at h1
                  obtain ⟨pp0, hpp0, col, hcol, h1c, h2c, h3c⟩ := hinv i p hip habs0
                  have hc1 : lookupA cmap1 i = some col :=
                    updateCollectionPaths_tomb item.id st.cmap ip found cmap1 hu
                      i hi col hcol h1c
                  exact ⟨pp0, hpp0, col, by rw [key.2 i hi]; exact hc1, h1c, h2c, h3c⟩

theorem processItem_inv (ctx : UCtx) (st st2 : UCState) (item : DriveItemM)
    (h : processItem ctx st item = .ok st2)
    (hinv : TombInv ctx.oldPaths st) : TombInv ctx.oldPaths st2 := by
  simp only [processItem] at h
  by_cases hr : item.root = true
  · rw [if_pos hr] at h
    simp only [Except.ok.injEq] at h
    subst h
    intro i p hip habs
    have habs0 : lookupA (updatePath st.newPaths item.id
        (renderP (canonicalPath ctx (rootDrivePatternStr ctx.driveID)))) i
          = none := habs
    have hs := updatePath_isSome st.newPaths item.id
      (renderP (canonicalPath ctx (rootDrivePatternStr ctx.driveID))) i
    rw [habs0] at hs
    have horig : lookupA st.newPaths i = none := by
      cases hl : lookupA st.newPaths i with
      | none => rfl
      | some v => rw [hl] at hs; simp at hs
    exact hinv i p hip horig
  · rw [if_neg hr] at h
    cases hpr : item.parentRef with
    | none => simp only [hpr] at h; cases h
    | some pr =>
        simp only [hpr] at h
        cases hpid : pr.pid with
        | none => simp only [hpid] at h; cases h
        | some cid =>
            simp only [hpid] at h
            cases hcps : collectionPathStrRes ctx item pr cid with
            | error e => simp only [hcps] at h; cases h
            | ok o =>
                cases o with
                | none =>
                    simp only [hcps, Except.ok.injEq] at h
                    subst h
                    exact hinv
                | some cps =>
                    simp only [hcps] at h
                    cases hipr : itemPathRes item (canonicalPath ctx cps) with
                    | error e => simp only [hipr] at h; cases h
                    | ok itemPath =>
                        simp only [hipr] at h
                        by_cases hsk : (shouldSkipDrive ctx itemPath
                            && shouldSkipDrive ctx (some (canonicalPath ctx cps))) = true
                        · rw [if_pos hsk] at h
                          simp only [Except.ok.injEq] at h
                          subst h
                          exact hinv
                        · rw [if_neg hsk] at h
                          cases hk : item.kind with
                          | folder =>
                              simp only [hk] at h
                              exact processFolder_inv ctx st st2 item itemPath h hinv
                          | pkg =>
                              simp only [hk] at h
                              exact processFolder_inv ctx st st2 item itemPath h hinv
                          | file =>
                              simp only [hk] at h
                              exact processFile_inv ctx st st2 item cid
                                (canonicalPath ctx cps) h hinv
                          | other => simp only [hk] at h; cases h

theorem runStream_inv (ctx : UCtx) (events : List DriveItemM) :
    ∀ st st2, runStream ctx st events = .ok st2 → TombInv ctx.oldPaths st →
      TombInv ctx.oldPaths st2 := by
  induction events with
  | nil =>
      intro st st2 h hinv
      simp only [runStream, Except.ok.injEq] at h
      subst h
      exact hinv
  | cons item rest ih =>
      intro st st2 h hinv
      simp only [runStream] at h
      cases hp : processItem ctx st item with
      | error e => simp only [hp] at h; cases h
      | ok st1 =>
          simp only [hp] at h
          exact ih st1 st2 h (processItem_inv ctx st st1 item hp hinv)


/-- **C3** (spec §4.4): after the item stream of a drive completes and the
tombstone phase runs, every container id that was in the previous paths map
but is absent from the final new paths map — and whose previous display path
was not taken over by a collection materialized in this run — is represented
by a tombstone: the collection map holds an entry for it whose full path is
nil, whose previous path is the parsed old path, and whose state is Deleted. -/
theorem claim3_theorem (ctx : UCtx) (reset : Bool)
    (cmap0 : List (Str × CollectionM)) (events : List DriveItemM)
    (stMid st1 : UCState) (i p : Str)
    (hnd : (ctx.oldPaths.map (fun e => e.1)).Nodup)
    (hstream : runStream { ctx with invalidPrevDelta := reset }
      { cmap := cmap0
        newPaths := if reset then [] else ctx.oldPaths
        excluded := []
        itemColl := []
        numItems := 0
        numFiles := 0
        numContainers := 0 } events = .ok stMid)
    (htomb : tombstonePhase reset ctx.oldPaths stMid = .ok st1)
    (hip : lookupA ctx.oldPaths i = some p)
    (habs : lookupA st1.newPaths i = none)
    (hmod : p ∉ modifiedRender stMid.cmap) :
    ∃ pp, parsePath p = some pp ∧ ∃ col, lookupA st1.cmap i = some col
      ∧ col.fullPath = none ∧ col.prevPath = some pp
      ∧ col.state = CState.stDeleted := by
  cases reset with
  | false =>
      have hinv0 : TombInv ctx.oldPaths
          ({ cmap := cmap0, newPaths := ctx.oldPaths, excluded := [],
             itemColl := [], numItems := 0, numFiles := 0,
             numContainers := 0 } : UCState) := by
        intro j q hjq habs0
        have habs1 : lookupA ctx.oldPaths j = none := habs0
        rw [hjq] at habs1
        cases habs1
      have hinvMid : TombInv ctx.oldPaths stMid :=
        runStream_inv { ctx with invalidPrevDelta := false } events _ stMid
          hstream hinv0
      have hst : stMid = st1 := by simpa [tombstonePhase] using htomb
      subst hst
      exact hinvMid i p hip habs
  | true =>
      have hm := htomb
      simp only [tombstonePhase, Bool.not_true, Bool.false_eq_true, if_false] at hm
      by_cases htb : hasTombstone stMid.cmap = true
      · rw [if_pos htb] at hm
        cases hm
      · rw [if_neg htb] at hm
        obtain ⟨pre, post, hsplit, hpre⟩ := lookupA_split hip
        have hpost : ∀ e ∈ post, e.1 ≠ i := by
          intro e he hcontra
          have hnd2 := hnd
          rw [hsplit] at hnd2
          simp only [List.map_append, List.map_cons] at hnd2
          have h3 := List.Nodup.of_append_right hnd2
          rw [List.nodup_cons] at h3
          exact h3.1 (hcontra ▸ List.mem_map_of_mem (fun e => e.1) he)
        rw [hsplit, List.foldl_append] at hm
        cases hacc : List.foldl (tombStep (modifiedRender stMid.cmap))
            (Except.ok stMid) pre with
        | error e =>
            rw [hacc, List.foldl_cons] at hm
            rw [show tombStep (modifiedRender stMid.cmap) (Except.error e) (i, p)
              = Except.error e from rfl, tombFold_error] at hm
            cases hm
        | ok stPre =>
            rw [hacc, List.foldl_cons] at hm
            by_cases h1 : (lookupA stPre.newPaths i).isSome = true
            · exfalso
              have hstep : tombStep (modifiedRender stMid.cmap)
                  (Except.ok stPre) (i, p) = Except.ok stPre := by
                simp only [tombStep]
                rw [if_pos h1]
              rw [hstep] at hm
              have hnp := tombFold_ok_newPaths (modifiedRender stMid.cmap) post
                stPre st1 hm i
              rw [habs, h1] at hnp
              simp at hnp
            · cases hpp : parsePath p with
              | none =>
                  exfalso
                  have hstep : tombStep (modifiedRender stMid.cmap)
                      (Except.ok stPre) (i, p) = Except.error UErr.badPrevPath := by
                    simp only [tombStep, hpp]
                    rw [if_neg h1, if_neg hmod]
                  rw [hstep, tombFold_error] at hm
                  cases hm
              | some pe =>
                  have hstep : tombStep (modifiedRender stMid.cmap)
                      (Except.ok stPre) (i, p)
                      = Except.ok { stPre with
                          newPaths := eraseA stPre.newPaths i
                          cmap := insertA stPre.cmap i
                            (NewCollectionM none (some pe) true) } := by
                    simp only [tombStep, hpp]
                    rw [if_neg h1, if_neg hmod]
                  rw [hstep] at hm
                  refine ⟨pe, rfl, NewCollectionM none (some pe) true, ?_,
                    rfl, rfl, rfl⟩
                  rw [tombFold_ok_cmap (modifiedRender stMid.cmap) post _ st1 i
                    hm hpost]
                  show lookupA (insertA stPre.cmap i
                    (NewCollectionM none (some pe) true)) i = _
                  exact lookupA_insertA_self _ _ _

theorem claim3_witness :
    ∃ pp, parsePath (['t', '/', 'o', '/', 'u', '/', 'f', '/', 'a']) = some pp ∧
      ∃ col, lookupA st3Fin.cmap (['X']) = some col ∧ col.fullPath = none
        ∧ col.prevPath = some pp ∧ col.state = CState.stDeleted :=
  claim3_theorem ctx3W true [] [] stEmpty st3Fin (['X'])
    (['t', '/', 'o', '/', 'u', '/', 'f', '/', 'a'])
    (by decide) rfl (by decide) (by decide) (by decide) (by decide)


/-! ### Claim C8: folder aggregation in the details Builder -/

theorem mem_insertA_elim {κ α : Type} [DecidableEq κ] {m : List (κ × α)}
    {k : κ} {v : α} {x : κ × α} (h : x ∈ insertA m k v) :
    x ∈ m ∨ x = (k, v) := by
  induction m with
  | nil =>
      simp only [insertA, List.mem_singleton] at h
      exact Or.inr h
  | cons hd t ih =>
      obtain ⟨k0, v0⟩ := hd
      by_cases hk : k0 = k
      · subst hk
        simp only [insertA] at h
        rw [if_pos trivial] at h
        rcases List.mem_cons.mp h with h1 | h1
        · exact Or.inr h1
        · exact Or.inl (List.mem_cons_of_mem _ h1)
      · simp only [insertA] at h
        rw [if_neg hk] at h
        rcases List.mem_cons.mp h with h1 | h1
        · exact Or.inl (List.mem_cons.mpr (Or.inl h1))
        · rcases ih h1 with h2 | h2
          · exact Or.inl (List.mem_cons_of_mem _ h2)
          · exact Or.inr h2

theorem nodup_keys_insertA {κ α : Type} [DecidableEq κ] (m : List (κ × α))
    (k : κ) (v : α) (h : (m.map Prod.fst).Nodup) :
    ((insertA m k v).map Prod.fst).Nodup := by
  induction m with
  | nil => simp [insertA]
  | cons hd t ih =>
      obtain ⟨k0, v0⟩ := hd
      rw [List.map_cons, List.nodup_cons] at h
      by_cases hk : k0 = k
      · subst hk
        simp only [insertA]
        rw [if_pos trivial, List.map_cons, List.nodup_cons]
        exact h
      · simp only [insertA]
        rw [if_neg hk, List.map_cons, List.nodup_cons]
        refine ⟨?_, ih h.2⟩
        intro hc
        rcases List.mem_map.mp hc with ⟨x, hx, hx1⟩
        rcases mem_insertA_elim hx with h2 | h2
        · have hmem : x.1 ∈ t.map Prod.fst := List.mem_map_of_mem Prod.fst h2
          rw [hx1] at hmem
          exact h.1 hmem
        · rw [h2] at hx1
          exact hk hx1.symm

theorem lookupA_none_keys {κ α : Type} [DecidableEq κ] {m : List (κ × α)}
    {k : κ} (h : k ∉ m.map Prod.fst) : lookupA m k = none := by
  induction m with
  | nil => rfl
  | cons hd t ih =>
      obtain ⟨k0, v0⟩ := hd
      rw [List.map_cons] at h
      by_cases hk : k0 = k
      · exact absurd (List.mem_cons.mpr (Or.inl hk.symm)) h
      · rw [lookupA_cons, if_neg hk]
        exact ih fun hc => h (List.mem_cons_of_mem _ hc)

theorem countP_congrL {α : Type} (l : List α) (p q : α → Bool)
    (h : ∀ x ∈ l, p x = q x) : l.countP p = l.countP q := by
  induction l with
  | nil => rfl
  | cons x t ih =>
      rw [List.countP_cons, List.countP_cons, h x (List.mem_cons_self x t),
        ih fun y hy => h y (List.mem_cons_of_mem x hy)]

theorem countP_key_eq {κ α : Type} [DecidableEq κ] (m : List (κ × α)) (a : κ)
    (h : (m.map Prod.fst).Nodup) :
    (m.countP fun kv => decide (kv.1 = a))
      = if (lookupA m a).isSome then 1 else 0 := by
  induction m with
  | nil => rfl
  | cons hd t ih =>
      obtain ⟨k0, v0⟩ := hd
      rw [List.map_cons, List.nodup_cons] at h
      rw [List.countP_cons]
      by_cases hk : k0 = a
      · subst hk
        have ht : lookupA t k0 = none := lookupA_none_keys h.1
        have h0 : (t.countP fun kv => decide (kv.1 = k0)) = 0 := by
          rw [ih h.2, ht]
          rfl
        rw [h0, lookupA_cons, if_pos rfl]
        simp
      · rw [lookupA_cons, if_neg hk, ih h.2]
        simp [hk]

theorem dropLast_append_ne {α : Type} (l1 l2 : List α) (h : l2 ≠ []) :
    (l1 ++ l2).dropLast = l1 ++ l2.dropLast := by
  induction l1 with
  | nil => rfl
  | cons x xs ih =>
      have hne : xs ++ l2 ≠ [] := by
        intro hc
        exact h (List.append_eq_nil.mp hc).2
      cases hx : xs ++ l2 with
      | nil => exact absurd hx hne
      | cons y ys =>
          rw [List.cons_append, hx, List.dropLast_cons₂, ← hx, ih,
            List.cons_append]

theorem dropLast_isPre {α : Type} (l : List α) : l.dropLast <+: l := by
  induction l with
  | nil => exact ⟨[], rfl⟩
  | cons x t ih =>
      cases t with
      | nil => exact ⟨[x], rfl⟩
      | cons y ys =>
          obtain ⟨r, hr⟩ := ih
          exact ⟨r, by rw [List.dropLast_cons₂, List.cons_append, hr]⟩

theorem if_lt_max (m x : Nat) : (if m < x then x else m) = max m x := by
  by_cases h : m < x
  · rw [if_pos h, Nat.max_eq_right (Nat.le_of_lt h)]
  · rw [if_neg h, Nat.max_eq_left (Nat.le_of_not_lt h)]

namespace Details

theorem fe_sound : ∀ (n : Nat) (parent : List Str) (lfs : Option (List Str)),
    parent.length = n →
    ∀ e ∈ folderEntriesAux parent lfs,
      e.shortRef ≠ [] ∧ e.shortRef <+: parent ∧ e.info.size = 0
        ∧ e.info.modified = 0 ∧ e.updated = false := by
  intro n
  induction n with
  | zero =>
      intro parent lfs hlen e he
      have hp : parent = [] := List.length_eq_zero.mp hlen
      subst hp
      unfold folderEntriesAux at he
      rw [dif_pos rfl] at he
      cases he
  | succ k ih =>
      intro parent lfs hlen e he
      have hp : parent ≠ [] := by
        intro hc
        rw [hc] at hlen
        simp at hlen
      unfold folderEntriesAux at he
      rw [dif_neg hp] at he
      simp only [List.mem_cons] at he
      rcases he with h1 | h1
      · subst h1
        exact ⟨hp, ⟨[], List.append_nil parent⟩, rfl, rfl, rfl⟩
      · have hlen2 : parent.dropLast.length = k := by
          rw [List.length_dropLast, hlen]
          omega
        obtain ⟨ha1, ha2, ha3, ha4, ha5⟩ :=
          ih parent.dropLast (lfs.map List.dropLast) hlen2 e h1
        exact ⟨ha1, ha2.trans (dropLast_isPre parent), ha3, ha4, ha5⟩

theorem fe_split : ∀ (n : Nat) (parent : List Str) (lfs : Option (List Str)),
    parent.length = n → ∀ a, a ≠ [] → a <+: parent →
    ∃ pre e post,
      folderEntriesAux parent lfs = pre ++ e :: post
      ∧ e.shortRef = a ∧ e.info.size = 0 ∧ e.info.modified = 0
      ∧ e.updated = false
      ∧ (∀ x ∈ pre, x.shortRef ≠ a) ∧ (∀ x ∈ post, x.shortRef ≠ a) := by
  intro n
  induction n with
  | zero =>
      intro parent lfs hlen a ha hpref
      have hp : parent = [] := List.length_eq_zero.mp hlen
      subst hp
      obtain ⟨t, ht⟩ := hpref
      exact absurd (List.append_eq_nil.mp ht).1 ha
  | succ k ih =>
      intro parent lfs hlen a ha hpref
      have hp : parent ≠ [] := by
        intro hc
        rw [hc] at hlen
        simp at hlen
      have hunf : folderEntriesAux parent lfs
          = feEntry parent hp lfs
            :: folderEntriesAux parent.dropLast (lfs.map List.dropLast) := by
        conv_lhs => rw [folderEntriesAux.eq_def]
        rw [dif_neg hp]
      have hdsr : (feEntry parent hp lfs).shortRef = parent := rfl
      have hds : (feEntry parent hp lfs).info.size = 0 := rfl
      have hdm : (feEntry parent hp lfs).info.modified = 0 := rfl
      have hdu : (feEntry parent hp lfs).updated = false := rfl
      have hlen2 : parent.dropLast.length = k := by
        rw [List.length_dropLast, hlen]
        omega
      by_cases heq : a = parent
      · refine ⟨[], feEntry parent hp lfs,
          folderEntriesAux parent.dropLast (lfs.map List.dropLast),
          by simp [hunf], by rw [hdsr, heq], hds, hdm, hdu, ?_, ?_⟩
        · intro x hx
          cases hx
        · intro x hx hcontra
          obtain ⟨_, hx2, _, _, _⟩ := fe_sound k parent.dropLast
            (lfs.map List.dropLast) hlen2 x hx
          have hle := hx2.length_le
          rw [hcontra, heq, List.length_dropLast, hlen] at hle
          omega
      · obtain ⟨t, ht⟩ := hpref
        have ht2 : t ≠ [] := by
          intro hc
          rw [hc, List.append_nil] at ht
          exact heq ht
        have hpref2 : a <+: parent.dropLast := by
          refine ⟨t.dropLast, ?_⟩
          rw [← ht, dropLast_append_ne a t ht2]
        obtain ⟨pre, e, post, hsp, h1, h2, h3, h4, h5, h6⟩ :=
          ih parent.dropLast (lfs.map List.dropLast) hlen2 a ha hpref2
        refine ⟨feEntry parent hp lfs :: pre, e, post, ?_, h1, h2, h3, h4,
          ?_, h6⟩
        · simp [hunf, hsp]
        · intro x hx
          rcases List.mem_cons.mp hx with hx1 | hx1
          · rw [hx1, hdsr]
            exact fun hc => heq hc.symm
          · exact h5 x hx1

theorem afi_nil (kf : List (List Str × FolderEntryM)) (i : ItemInfoM)
    (u : Bool) : addFoldersForItem kf [] i u = kf := rfl

theorem afi_cons (kf : List (List Str × FolderEntryM)) (x : FolderEntryM)
    (rest : List FolderEntryM) (i : ItemInfoM) (u : Bool) :
    addFoldersForItem kf (x :: rest) i u
      = addFoldersForItem
          (insertA kf x.shortRef
            (bumpFolder ((lookupA kf x.shortRef).getD x) i u))
          rest i u := rfl

theorem afi_append (kf : List (List Str × FolderEntryM))
    (l1 l2 : List FolderEntryM) (i : ItemInfoM) (u : Bool) :
    addFoldersForItem kf (l1 ++ l2) i u
      = addFoldersForItem (addFoldersForItem kf l1 i u) l2 i u := by
  unfold addFoldersForItem
  exact List.foldl_append _ _ _ _

theorem afi_ne (kf : List (List Str × FolderEntryM))
    (folders : List FolderEntryM) (i : ItemInfoM) (u : Bool) (a : List Str)
    (h : ∀ x ∈ folders, x.shortRef ≠ a) :
    lookupA (addFoldersForItem kf folders i u) a = lookupA kf a := by
  induction folders generalizing kf with
  | nil => rfl
  | cons x rest ih =>
      rw [afi_cons, ih _ fun y hy => h y (List.mem_cons_of_mem x hy)]
      exact lookupA_insertA_ne _ _ _ _
        (Ne.symm (h x (List.mem_cons_self x rest)))

theorem afi_spec (kf : List (List Str × FolderEntryM))
    (pre : List FolderEntryM) (e : FolderEntryM) (post : List FolderEntryM)
    (i : ItemInfoM) (u : Bool) (a : List Str) (he : e.shortRef = a)
    (hpre : ∀ x ∈ pre, x.shortRef ≠ a)
    (hpost : ∀ x ∈ post, x.shortRef ≠ a) :
    lookupA (addFoldersForItem kf (pre ++ e :: post) i u) a
      = some (bumpFolder ((lookupA kf a).getD e) i u) := by
  rw [afi_append, afi_cons, afi_ne _ post i u a hpost, he,
    afi_ne kf pre i u a hpre]
  exact lookupA_insertA_self _ _ _


theorem afi_kvInv (kf : List (List Str × FolderEntryM))
    (folders : List FolderEntryM) (i : ItemInfoM) (u : Bool)
    (h : kvInv kf) : kvInv (addFoldersForItem kf folders i u) := by
  induction folders generalizing kf with
  | nil => exact h
  | cons x rest ih =>
      rw [afi_cons]
      refine ih _ ?_
      intro kv hin
      rcases mem_insertA_elim hin with h1 | h1
      · exact h kv h1
      · rw [h1]
        cases hl : lookupA kf x.shortRef with
        | none => rfl
        | some f0 => exact h (x.shortRef, f0) (lookupA_mem hl)

theorem run_kvInv : ∀ (calls : List FolderCall)
    (kf : List (List Str × FolderEntryM)), kvInv kf →
    kvInv (runBuilderFolders kf calls) := by
  intro calls
  induction calls with
  | nil =>
      intro kf h
      exact h
  | cons c rest ih =>
      intro kf h
      simp only [runBuilderFolders]
      exact ih _ (afi_kvInv kf _ c.info c.updated h)

theorem afi_keysNodup (kf : List (List Str × FolderEntryM))
    (folders : List FolderEntryM) (i : ItemInfoM) (u : Bool)
    (h : (kf.map Prod.fst).Nodup) :
    ((addFoldersForItem kf folders i u).map Prod.fst).Nodup := by
  induction folders generalizing kf with
  | nil => exact h
  | cons x rest ih =>
      rw [afi_cons]
      exact ih _ (nodup_keys_insertA kf _ _ h)

theorem run_keysNodup : ∀ (calls : List FolderCall)
    (kf : List (List Str × FolderEntryM)), (kf.map Prod.fst).Nodup →
    ((runBuilderFolders kf calls).map Prod.fst).Nodup := by
  intro calls
  induction calls with
  | nil =>
      intro kf h
      exact h
  | cons c rest ih =>
      intro kf h
      simp only [runBuilderFolders]
      exact ih _ (afi_keysNodup kf _ c.info c.updated h)

theorem run_spec (a : List Str) (ha : a ≠ []) :
    ∀ (calls : List FolderCall) (kf : List (List Str × FolderEntryM)),
    entryStats (lookupA (runBuilderFolders kf calls) a)
      = ((entryStats (lookupA kf a)).1
            + ((callsUnder a calls).map fun c => c.info.size).sum,
         ((callsUnder a calls).map fun c => c.info.modified).foldl max
            (entryStats (lookupA kf a)).2.1,
         (entryStats (lookupA kf a)).2.2
            || ((callsUnder a calls).any fun c => c.updated))
    ∧ (lookupA (runBuilderFolders kf calls) a).isSome
      = ((lookupA kf a).isSome || !(callsUnder a calls).isEmpty) := by
  intro calls
  induction calls with
  | nil =>
      intro kf
      constructor
      · simp [runBuilderFolders, callsUnder]
      · simp [runBuilderFolders, callsUnder]
  | cons c rest ih =>
      intro kf
      simp only [runBuilderFolders]
      obtain ⟨ih1, ih2⟩ := ih (addFoldersForItem kf
        (folderEntriesForPath c.parent c.location) c.info c.updated)
      by_cases hpc : a <+: c.parent
      · obtain ⟨pre, e, post, hsp, he, hs0, hm0, hu0, hpre2, hpost2⟩ :=
          fe_split c.parent.length c.parent (locationRefOf c.location) rfl
            a ha hpc
        have hfe : folderEntriesForPath c.parent c.location
            = pre ++ e :: post := hsp
        have hlook : lookupA (addFoldersForItem kf
            (folderEntriesForPath c.parent c.location) c.info c.updated) a
            = some (bumpFolder ((lookupA kf a).getD e) c.info c.updated) := by
          rw [hfe]
          exact afi_spec kf pre e post c.info c.updated a he hpre2 hpost2
        have hcu : callsUnder a (c :: rest) = c :: callsUnder a rest := by
          simp [callsUnder, List.filter_cons, hpc]
        constructor
        · rw [ih1, hlook, hcu]
          cases hl : lookupA kf a with
          | none =>
              simp only [entryStats, bumpFolder, Option.getD_none, hs0, hm0,
                hu0, List.map_cons, List.sum_cons, List.foldl_cons,
                List.any_cons, Prod.mk.injEq]
              refine ⟨?_, ?_, ?_⟩
              · omega
              · rw [if_lt_max]
              · rw [Bool.or_assoc]
          | some f0 =>
              simp only [entryStats, bumpFolder, Option.getD_some,
                List.map_cons, List.sum_cons, List.foldl_cons,
                List.any_cons, Prod.mk.injEq]
              refine ⟨?_, ?_, ?_⟩
              · omega
              · rw [if_lt_max]
              · rw [Bool.or_assoc]
        · rw [ih2, hlook, hcu]
          simp
      · have hne : ∀ x ∈ folderEntriesForPath c.parent c.location,
            x.shortRef ≠ a := by
          intro x hx hcontra
          obtain ⟨_, hx2, _, _, _⟩ := fe_sound c.parent.length c.parent
            (locationRefOf c.location) rfl x hx
          rw [hcontra] at hx2
          exact hpc hx2
        have hlook : lookupA (addFoldersForItem kf
            (folderEntriesForPath c.parent c.location) c.info c.updated) a
            = lookupA kf a :=
          afi_ne kf (folderEntriesForPath c.parent c.location) c.info
            c.updated a hne
        have hcu : callsUnder a (c :: rest) = callsUnder a rest := by
          simp [callsUnder, List.filter_cons, hpc]
        constructor
        · rw [ih1, hlook, hcu]
        · rw [ih2, hlook, hcu]

/-- **C8** (spec §8): for every sequence of items merged through the details
Builder, each ancestor folder implied by an item's storage path (each
nonempty prefix, keyed by its short ref) appears exactly once as a folder
entry in the final details, with size the sum of the sizes of the items
added beneath it, modified time the maximum modified time of those items,
and Updated the logical OR of those items' updated flags. -/
theorem claim8_theorem (itemEntries : List DetailsEntryM)
    (calls : List FolderCall) (a : List Str) (ha : a ≠ [])
    (hitems : ∀ e ∈ itemEntries, e.folderInfo = none)
    (hhit : ∃ c ∈ calls, a <+: c.parent) :
    ∃ fi upd,
      ((buildDetails itemEntries (runBuilderFolders [] calls)).countP
          fun e => decide (e.shortRef = a) && e.folderInfo.isSome) = 1
      ∧ (∃ e ∈ buildDetails itemEntries (runBuilderFolders [] calls),
          e.shortRef = a ∧ e.folderInfo = some fi ∧ e.updated = upd)
      ∧ fi.size = ((callsUnder a calls).map fun c => c.info.size).sum
      ∧ fi.modified
          = ((callsUnder a calls).map fun c => c.info.modified).foldl max 0
      ∧ upd = ((callsUnder a calls).any fun c => c.updated) := by
  obtain ⟨hstats, hsome⟩ := run_spec a ha calls []
  have hcune : (callsUnder a calls).isEmpty = false := by
    obtain ⟨c, hc, hcp⟩ := hhit
    have hmemc : c ∈ callsUnder a calls := by
      simp [callsUnder, List.mem_filter, hc, hcp]
    cases hcu : callsUnder a calls with
    | nil =>
        rw [hcu] at hmemc
        cases hmemc
    | cons x xs => rfl
  have hsome2 : (lookupA (runBuilderFolders [] calls) a).isSome = true := by
    rw [hsome, hcune]
    rfl
  obtain ⟨f, hf⟩ := Option.isSome_iff_exists.mp hsome2
  have hkvi : kvInv (runBuilderFolders [] calls) :=
    run_kvInv calls [] (by intro kv hkv; cases hkv)
  have hnd : ((runBuilderFolders [] calls).map Prod.fst).Nodup :=
    run_keysNodup calls [] (by simp)
  have hfa : f.shortRef = a := hkvi (a, f) (lookupA_mem hf)
  have hstats2 : (f.info.size, f.info.modified, f.updated)
      = (((callsUnder a calls).map fun c => c.info.size).sum,
         ((callsUnder a calls).map fun c => c.info.modified).foldl max 0,
         ((callsUnder a calls).any fun c => c.updated)) := by
    rw [hf] at hstats
    simpa [entryStats, lookupA] using hstats
  obtain ⟨hsz, hmd, hup⟩ :
      f.info.size = ((callsUnder a calls).map fun c => c.info.size).sum
      ∧ f.info.modified
          = ((callsUnder a calls).map fun c => c.info.modified).foldl max 0
      ∧ f.updated = ((callsUnder a calls).any fun c => c.updated) := by
    simpa using hstats2
  have hmem : (a, f) ∈ runBuilderFolders [] calls := lookupA_mem hf
  have hcount : ((buildDetails itemEntries (runBuilderFolders [] calls)).countP
      fun e => decide (e.shortRef = a) && e.folderInfo.isSome) = 1 := by
    unfold buildDetails
    rw [List.countP_append]
    have hz : (itemEntries.countP
        fun e => decide (e.shortRef = a) && e.folderInfo.isSome) = 0 := by
      refine List.countP_eq_zero.mpr ?_
      intro e he
      simp [hitems e he]
    rw [hz, List.countP_map]
    have hpq : ∀ kv ∈ runBuilderFolders [] calls,
        ((fun e => decide (e.shortRef = a) && e.folderInfo.isSome) ∘
          detailsOfFolder) kv
          = (fun kv => decide (kv.1 = a)) kv := by
      intro kv hin
      have hkk : kv.2.shortRef = kv.1 := hkvi kv hin
      simp [Function.comp, detailsOfFolder, hkk]
    rw [countP_congrL _ _ _ hpq, countP_key_eq _ a hnd, hf]
    rfl
  have hmem2 : detailsOfFolder (a, f)
      ∈ buildDetails itemEntries (runBuilderFolders [] calls) := by
    unfold buildDetails
    exact List.mem_append_right _ (List.mem_map_of_mem _ hmem)
  exact ⟨f.info, f.updated, hcount, ⟨_, hmem2, hfa, rfl, rfl⟩,
    hsz, hmd, hup⟩

theorem claim8_witness :
    ∃ fi upd,
      ((buildDetails [] (runBuilderFolders [] [callW, callW2])).countP
          fun e => decide (e.shortRef = pathA) && e.folderInfo.isSome) = 1
      ∧ (∃ e ∈ buildDetails [] (runBuilderFolders [] [callW, callW2]),
          e.shortRef = pathA ∧ e.folderInfo = some fi ∧ e.updated = upd)
      ∧ fi.size = ((callsUnder pathA [callW, callW2]).map
            fun c => c.info.size).sum
      ∧ fi.modified = ((callsUnder pathA [callW, callW2]).map
            fun c => c.info.modified).foldl max 0
      ∧ upd = ((callsUnder pathA [callW, callW2]).any fun c => c.updated) :=
  claim8_theorem [] [callW, callW2] pathA (by decide)
    (by intro e he; cases he) (by decide)

end Details

end Corso
